import Mathlib

/-!
Shallow embedding of `src/armado/sqlite_index.py` (CDPedia): the `DocSet`
posting-list codec, the paged document store, and the index build/query
pipeline, together with proofs of the specification claims about them.

Byte strings are modelled as `List Nat` whose elements are below 256.
Python dictionaries (`defaultdict`) are modelled as insertion-ordered
association lists, which matches the iteration order guarantees of
CPython dicts that the code relies on.
-/

namespace CDPedia

/-- PAGE_SIZE constant from sqlite_index.py. -/
def PAGE_SIZE : Nat := 512

/-! ### Insertion-ordered dictionaries (CPython `defaultdict(list)` model)

`dictAppend d k v` models `d[k].append(v)` on a `defaultdict(list)`:
if the key exists its bucket is extended in place, otherwise a new
key with a one-element bucket is appended at the end (CPython dicts
iterate in insertion order). -/

def dictAppend {κ β : Type} [DecidableEq κ] : List (κ × List β) → κ → β → List (κ × List β)
  | [], k, v => [(k, [v])]
  | (k', vs) :: rest, k, v =>
    if k = k' then (k', vs ++ [v]) :: rest else (k', vs) :: dictAppend rest k v

/-- Lookup of a key's bucket; `[]` when absent (defaultdict read). -/
def dGet {κ β : Type} [DecidableEq κ] : List (κ × List β) → κ → List β
  | [], _ => []
  | (k', vs) :: rest, k => if k' = k then vs else dGet rest k

/-- Keys of the dictionary, in insertion order. -/
def dKeys {κ β : Type} (l : List (κ × β)) : List κ := l.map (fun p => p.1)

/-- Flattened `(key, element)` pairs of a list-valued dictionary, in
dictionary iteration order (this is the `docs_list` flattening that
`DocSet.encode` performs). -/
def dPairs {κ β : Type} (l : List (κ × List β)) : List (κ × β) :=
  (l.map (fun kv => kv.2.map (fun v => (kv.1, v)))).flatten

/-! ### DocSet -/

/-- DocSet from sqlite_index.py: sparse mapping docid -> list of
positions, stored as an insertion-ordered dictionary (`_docs_list`,
a `defaultdict(list)`). -/
structure DocSet where
  docs_list : List (Nat × List Nat)
deriving DecidableEq

/-- Sentinel byte separating positions from the docid stream. -/
def SEPARATOR : Nat := 0xFF

/-- DocSet.append: `self._docs_list[docid].append(position)`. -/
def DocSet.append (ds : DocSet) (docid position : Nat) : DocSet :=
  ⟨dictAppend ds.docs_list docid position⟩

/-- DocSet.__len__: `len(self._docs_list)`, the number of distinct docids. -/
def DocSet.len (ds : DocSet) : Nat := ds.docs_list.length

/-- Positions stored for one docid (empty when the docid is absent). -/
def DocSet.posOf (ds : DocSet) (d : Nat) : List Nat := dGet ds.docs_list d

/-- Docids present in the DocSet, in insertion order. -/
def DocSet.keysOf (ds : DocSet) : List Nat := dKeys ds.docs_list

/-- DocSet built by a sequence of `append(docid, position)` calls. -/
def fromPairs (ops : List (Nat × Nat)) : DocSet :=
  ops.foldl (fun ds p => ds.append p.1 p.2) ⟨[]⟩

deriving instance DecidableEq for Except

/-- Fuel-indexed inner loop of `DocSet.delta_encode` for one delta: any
fuel at least the encoded number gives the untruncated result (the fuel
only makes the recursion structural; see `varint_eq`). -/
def varintAux : Nat → Nat → List Nat
  | 0, n => [n % 128]
  | fuel + 1, n =>
    if n / 128 = 0 then [n % 128] else (n % 128 + 128) :: varintAux fuel (n / 128)

/-- Inner loop of `DocSet.delta_encode` for one delta `n ≥ 0`: emit the
low 7 bits (`n & 0x7F = n % 128`); if the remainder (`n >>= 7`, that is
`n / 128`) is nonzero, set the continuation flag (`| 0x80 = + 128`,
the low bits being disjoint from the flag bit) and continue. -/
def varint (n : Nat) : List Nat := varintAux n n

theorem varintAux_congr : ∀ f₁ f₂ n : Nat, n ≤ f₁ → n ≤ f₂ →
    varintAux f₁ n = varintAux f₂ n := by
  intro f₁
  induction f₁ with
  | zero =>
    intro f₂ n h₁ _
    interval_cases n
    cases f₂ <;> simp [varintAux]
  | succ m ih =>
    intro f₂ n h₁ h₂
    cases f₂ with
    | zero =>
      interval_cases n
      simp [varintAux]
    | succ g =>
      by_cases hz : n / 128 = 0
      · simp [varintAux, hz]
      · have hn : 128 ≤ n := by
          by_contra hlt
          exact hz (Nat.div_eq_of_lt (by omega))
        have hlt : n / 128 < n := Nat.div_lt_self (by omega) (by omega)
        simp only [varintAux, hz, if_false]
        rw [ih g (n / 128) (by omega) (by omega)]

/-- Unfolding equation of `varint`, matching the Python loop. -/
theorem varint_eq (n : Nat) :
    varint n = if n / 128 = 0 then [n % 128] else (n % 128 + 128) :: varint (n / 128) := by
  by_cases hz : n / 128 = 0
  · cases n with
    | zero => simp [varint, varintAux, hz]
    | succ m => simp [varint, varintAux, hz]
  · have hn : 128 ≤ n := by
      by_contra hlt
      exact hz (Nat.div_eq_of_lt (by omega))
    cases n with
    | zero => omega
    | succ m =>
      simp only [varint, varintAux, hz, if_false]
      rw [varintAux_congr m (n := (m + 1) / 128) ((m + 1) / 128)
        (by have := Nat.div_lt_self (n := m + 1) (by omega) (by omega : (1:Nat) < 128); omega)
        (le_refl _)]

/-- Loop of `DocSet.delta_encode`: each element is emitted as the varint
of its difference with the previous element (`prev_doc` starts at 0).
Subtraction is on `Nat`; it agrees with the Python `int` subtraction on the
non-decreasing sequences the code feeds in (on a decreasing step the Python
inner loop would never terminate, so no byte string is produced there). -/
def delta_encode_aux : List Nat → Nat → List Nat
  | [], _ => []
  | doc :: rest, prev_doc => varint (doc - prev_doc) ++ delta_encode_aux rest doc

/-- DocSet.delta_encode. -/
def DocSet.delta_encode (ordered : List Nat) : List Nat :=
  delta_encode_aux ordered 0

/-- Loop of `DocSet.delta_decode` with state `(prev_doc, doc, shift)`.
Its input bytes are below 256 (Python `bytes` elements), so
`b & 0x7F = b % 128`, the continuation test `b & 0x80` is `128 ≤ b`, and
`doc |= (b & 0x7F) << shift` is addition because the accumulated `doc`
only has bits below `shift`. -/
def delta_decode_aux : List Nat → Nat → Nat → Nat → List Nat
  | [], _, _, _ => []
  | b :: rest, prev_doc, doc, shift =>
    let doc' := doc + (b % 128) * 2 ^ shift
    if b < 128 then
      (prev_doc + doc') :: delta_decode_aux rest (prev_doc + doc') 0 0
    else
      delta_decode_aux rest prev_doc doc' (shift + 7)

/-- DocSet.delta_decode. -/
def DocSet.delta_decode (ordered : List Nat) : List Nat :=
  delta_decode_aux ordered 0 0 0

/-- Lexicographic order on `(docid, position)` pairs: Python's tuple
order used by `docs_list.sort()`. -/
def pairLe (a b : Nat × Nat) : Prop := a.1 < b.1 ∨ (a.1 = b.1 ∧ a.2 ≤ b.2)

instance : DecidableRel pairLe := by
  intro a b; unfold pairLe; infer_instance

instance : IsTotal (Nat × Nat) pairLe := by
  constructor; intro a b; unfold pairLe; omega

instance : IsTrans (Nat × Nat) pairLe := by
  constructor; intro a b c; unfold pairLe; omega

/-- DocSet.encode: empty docset encodes to the empty byte string;
otherwise flatten `_docs_list` into `(docid, position)` pairs, sort
them (Python `list.sort`, ascending tuple order), delta-encode the
docid column, and, provided no position reaches the sentinel value,
emit the position bytes, the sentinel 0xFF, and the docid bytes.
Positions ≥ 255 raise `ValueError` (the spec's `InvalidPosition`). -/
def DocSet.encode (ds : DocSet) : Except String (List Nat) :=
  if ds.docs_list.isEmpty then .ok []
  else
    let docs_list := (dPairs ds.docs_list).insertionSort pairLe
    let docs := docs_list.map (fun v => v.1)
    let docs_enc := DocSet.delta_encode docs
    let position := docs_list.map (fun v => v.2)
    if position.any (fun x => decide (SEPARATOR ≤ x)) then
      .error "Positions can\x27t be greater than 254."
    else
      .ok ((position ++ [SEPARATOR]) ++ docs_enc)

/-- DocSet.decode: inputs of length ≤ 1 give an empty docset; otherwise
split at the first occurrence of the sentinel (`encoded.index(SEPARATOR)`;
on the byte strings produced by `encode` the sentinel is always present),
delta-decode the docid stream, and rebuild the dictionary by appending
each `(docid, position)` pair in order (`zip` truncates to the shorter
column, as in Python). -/
def DocSet.decode (encoded : List Nat) : DocSet :=
  if encoded.length ≤ 1 then ⟨[]⟩
  else
    let limit := encoded.indexOf SEPARATOR
    let docsid := DocSet.delta_decode (encoded.drop (limit + 1))
    let positions := encoded.take limit
    ⟨(docsid.zip positions).foldl (fun d p => dictAppend d p.1 p.2) []⟩

/-! ### Correctness of the delta varint codec -/

theorem delta_decode_aux_varint (n : Nat) : ∀ rest prev doc shift,
    delta_decode_aux (varint n ++ rest) prev doc shift
      = (prev + (doc + n * 2 ^ shift))
          :: delta_decode_aux rest (prev + (doc + n * 2 ^ shift)) 0 0 := by
  induction n using Nat.strong_induction_on with
  | _ n ih =>
    intro rest prev doc shift
    rw [varint_eq]
    by_cases hz : n / 128 = 0
    · have hlt : n < 128 := by omega
      simp only [hz, if_true, List.cons_append, List.nil_append]
      have hmod : n % 128 = n := Nat.mod_eq_of_lt hlt
      simp [delta_decode_aux, hmod, hlt]
    · have hn : 128 ≤ n := by
        by_contra hlt
        exact hz (Nat.div_eq_of_lt (by omega))
      simp only [hz, if_false, List.cons_append]
      have hb : ¬ (n % 128 + 128 < 128) := by omega
      simp only [delta_decode_aux, hb, if_false]
      have hmod : (n % 128 + 128) % 128 = n % 128 := by omega
      rw [hmod]
      rw [ih (n / 128) (Nat.div_lt_self (by omega) (by omega)) rest prev
        (doc + n % 128 * 2 ^ shift) (shift + 7)]
      have harith : doc + n % 128 * 2 ^ shift + n / 128 * 2 ^ (shift + 7)
          = doc + n * 2 ^ shift := by
        have h2 : (2:Nat) ^ (shift + 7) = 2 ^ shift * 128 := by
          rw [pow_add]; norm_num
        rw [h2]
        calc doc + n % 128 * 2 ^ shift + n / 128 * (2 ^ shift * 128)
            = doc + (128 * (n / 128) + n % 128) * 2 ^ shift := by ring
          _ = doc + n * 2 ^ shift := by rw [Nat.div_add_mod]
      rw [harith]

theorem delta_aux_roundtrip : ∀ (l : List Nat) (prev : Nat),
    List.Chain (· ≤ ·) prev l →
    delta_decode_aux (delta_encode_aux l prev) prev 0 0 = l := by
  intro l
  induction l with
  | nil => intro prev _; simp [delta_encode_aux, delta_decode_aux]
  | cons d rest ih =>
    intro prev hch
    rw [List.chain_cons] at hch
    simp only [delta_encode_aux]
    rw [delta_decode_aux_varint]
    have hd : prev + (0 + (d - prev) * 2 ^ 0) = d := by
      simp only [pow_zero, mul_one, Nat.zero_add]
      omega
    rw [hd, ih d hch.2]

theorem chain_of_pairwise_le {l : List Nat} (h : l.Pairwise (· ≤ ·)) :
    List.Chain (· ≤ ·) 0 l := by
  cases l with
  | nil => exact List.Chain.nil
  | cons d rest =>
    rw [List.chain_cons]
    rw [List.pairwise_cons] at h
    refine ⟨Nat.zero_le d, ?_⟩
    rw [List.chain_iff_pairwise]
    exact List.pairwise_cons.mpr h

/-- C7: for every non-decreasing sequence of naturals, delta-decoding the
delta-encoding returns the sequence unchanged; moreover a value equal to
its predecessor contributes exactly one zero byte to the encoding. -/
theorem delta_codec_roundtrip (seq : List Nat) (h : seq.Pairwise (· ≤ ·)) :
    DocSet.delta_decode (DocSet.delta_encode seq) = seq ∧
    ∀ (d : Nat) (rest : List Nat),
      delta_encode_aux (d :: rest) d = 0 :: delta_encode_aux rest d := by
  constructor
  · exact delta_aux_roundtrip seq 0 (chain_of_pairwise_le h)
  · intro d rest
    simp [delta_encode_aux, varint, varintAux, Nat.sub_self]

theorem delta_codec_roundtrip_witness :
    ([1, 1, 3, 300] : List Nat).Pairwise (· ≤ ·) ∧
    DocSet.delta_decode (DocSet.delta_encode [1, 1, 3, 300]) = [1, 1, 3, 300] :=
  ⟨by decide, (delta_codec_roundtrip [1, 1, 3, 300] (by decide)).1⟩

/-! ### Dictionary lemmas -/

theorem dGet_dictAppend {κ β : Type} [DecidableEq κ] (l : List (κ × List β)) (k : κ) (v : β)
    (d : κ) :
    dGet (dictAppend l k v) d = if k = d then dGet l d ++ [v] else dGet l d := by
  induction l with
  | nil =>
    by_cases hdk : k = d
    · subst hdk
      simp [dictAppend, dGet]
    · simp [dictAppend, dGet, hdk]
  | cons hd rest ih =>
    obtain ⟨k', vs⟩ := hd
    by_cases hkk : k = k'
    · subst hkk
      by_cases hdk : k = d
      · subst hdk
        simp [dictAppend, dGet]
      · simp [dictAppend, dGet, hdk]
    · simp only [dictAppend, if_neg hkk]
      by_cases hdk' : k' = d
      · subst hdk'
        have hkd : ¬ k = k' := hkk
        simp [dGet, hkd]
      · simp [dGet, hdk', ih]

theorem dKeys_dictAppend {κ β : Type} [DecidableEq κ] (l : List (κ × List β)) (k : κ) (v : β) :
    dKeys (dictAppend l k v)
      = if k ∈ dKeys l then dKeys l else dKeys l ++ [k] := by
  induction l with
  | nil => simp [dictAppend, dKeys]
  | cons hd rest ih =>
    obtain ⟨k', vs⟩ := hd
    by_cases hkk : k = k'
    · subst hkk
      simp [dictAppend, dKeys]
    · simp only [dictAppend, if_neg hkk, dKeys, List.map_cons, List.mem_cons]
      simp only [dKeys] at ih
      rw [ih]
      by_cases hmem : k ∈ rest.map (fun p => p.1)
      · simp [hmem, hkk]
      · simp [hmem, hkk]

theorem mem_dKeys_dictAppend {κ β : Type} [DecidableEq κ] (l : List (κ × List β)) (k : κ) (v : β)
    (d : κ) :
    d ∈ dKeys (dictAppend l k v) ↔ d ∈ dKeys l ∨ d = k := by
  rw [dKeys_dictAppend]
  by_cases hmem : k ∈ dKeys l
  · simp only [hmem, if_true]
    constructor
    · exact fun h => Or.inl h
    · rintro (h | h)
      · exact h
      · exact h ▸ hmem
  · simp [hmem]

theorem nodup_dKeys_dictAppend {κ β : Type} [DecidableEq κ] (l : List (κ × List β)) (k : κ)
    (v : β) (h : (dKeys l).Nodup) : (dKeys (dictAppend l k v)).Nodup := by
  rw [dKeys_dictAppend]
  by_cases hmem : k ∈ dKeys l
  · simpa [hmem]
  · simp only [hmem, if_false]
    simp [List.nodup_append, h, hmem]

theorem dPairs_dictAppend {κ β : Type} [DecidableEq κ] (l : List (κ × List β)) (k : κ) (v : β) :
    List.Perm (dPairs (dictAppend l k v)) (dPairs l ++ [(k, v)]) := by
  induction l with
  | nil => simp [dictAppend, dPairs]
  | cons hd rest ih =>
    obtain ⟨k', vs⟩ := hd
    by_cases hkk : k = k'
    · subst hkk
      simp only [dictAppend, eq_self_iff_true, if_true, dPairs, List.map_cons,
        List.flatten_cons, List.map_append, List.map_cons, List.map_nil,
        List.append_assoc]
      refine List.Perm.append_left _ ?_
      exact List.perm_append_comm
    · simp only [dictAppend, if_neg hkk, dPairs, List.map_cons, List.flatten_cons]
      rw [List.append_assoc]
      refine List.Perm.append_left _ ?_
      exact ih

/-- Folding a list of `(key, value)` appends into a dictionary (the way
`DocSet.decode` and the index builder populate their defaultdicts). -/
def foldAppend {κ β : Type} [DecidableEq κ] (dict : List (κ × List β)) (ops : List (κ × β)) :
    List (κ × List β) :=
  ops.foldl (fun d p => dictAppend d p.1 p.2) dict

theorem dGet_foldAppend {κ β : Type} [DecidableEq κ] (ops : List (κ × β)) :
    ∀ (dict : List (κ × List β)) (d : κ),
      dGet (foldAppend dict ops) d
        = dGet dict d ++ (ops.filter (fun p => decide (p.1 = d))).map (fun p => p.2) := by
  induction ops with
  | nil => intro dict d; simp [foldAppend]
  | cons p t ih =>
    intro dict d
    obtain ⟨k, v⟩ := p
    have hstep : foldAppend dict ((k, v) :: t) = foldAppend (dictAppend dict k v) t := rfl
    rw [hstep, ih, dGet_dictAppend]
    by_cases hkd : k = d
    · subst hkd
      simp [List.filter_cons, List.append_assoc]
    · simp [List.filter_cons, hkd]

theorem dPairs_foldAppend {κ β : Type} [DecidableEq κ] (ops : List (κ × β)) :
    ∀ dict : List (κ × List β),
      List.Perm (dPairs (foldAppend dict ops)) (dPairs dict ++ ops) := by
  induction ops with
  | nil => intro dict; simp [foldAppend]
  | cons p t ih =>
    intro dict
    obtain ⟨k, v⟩ := p
    have hstep : foldAppend dict ((k, v) :: t) = foldAppend (dictAppend dict k v) t := rfl
    rw [hstep]
    refine (ih (dictAppend dict k v)).trans ?_
    refine ((dPairs_dictAppend dict k v).append_right t).trans ?_
    simp [List.append_assoc]

theorem mem_dKeys_foldAppend {κ β : Type} [DecidableEq κ] (ops : List (κ × β)) :
    ∀ (dict : List (κ × List β)) (d : κ),
      d ∈ dKeys (foldAppend dict ops)
        ↔ d ∈ dKeys dict ∨ d ∈ ops.map (fun p => p.1) := by
  induction ops with
  | nil => intro dict d; simp [foldAppend]
  | cons p t ih =>
    intro dict d
    obtain ⟨k, v⟩ := p
    have hstep : foldAppend dict ((k, v) :: t) = foldAppend (dictAppend dict k v) t := rfl
    rw [hstep, ih, mem_dKeys_dictAppend]
    simp only [List.map_cons, List.mem_cons]
    tauto

theorem nodup_dKeys_foldAppend {κ β : Type} [DecidableEq κ] (ops : List (κ × β)) :
    ∀ dict : List (κ × List β),
      (dKeys dict).Nodup → (dKeys (foldAppend dict ops)).Nodup := by
  induction ops with
  | nil => intro dict h; exact h
  | cons p t ih =>
    intro dict h
    exact ih (dictAppend dict p.1 p.2) (nodup_dKeys_dictAppend dict p.1 p.2 h)

/-- Keys produced by folding a run of appends whose key column is
non-decreasing are strictly increasing, provided the starting
dictionary's keys are strictly increasing and below all appended keys. -/
theorem dKeys_sorted_foldAppend {β : Type} (ops : List (Nat × β)) :
    ∀ dict : List (Nat × List β),
      (ops.map (fun p => p.1)).Pairwise (· ≤ ·) →
      (dKeys dict).Pairwise (· < ·) →
      (∀ k ∈ dKeys dict, ∀ p ∈ ops, k ≤ p.1) →
      (dKeys (foldAppend dict ops)).Pairwise (· < ·) := by
  induction ops with
  | nil => intro dict _ hd _; exact hd
  | cons p t ih =>
    intro dict hops hd hbound
    obtain ⟨k, v⟩ := p
    have hstep : foldAppend dict ((k, v) :: t) = foldAppend (dictAppend dict k v) t := rfl
    rw [hstep]
    simp only [List.map_cons, List.pairwise_cons] at hops
    refine ih (dictAppend dict k v) hops.2 ?_ ?_
    · rw [dKeys_dictAppend]
      by_cases hmem : k ∈ dKeys dict
      · simpa [hmem]
      · simp only [hmem, if_false]
        rw [List.pairwise_append]
        refine ⟨hd, List.pairwise_singleton _ _, ?_⟩
        intro a ha b hb
        simp only [List.mem_singleton] at hb
        have hle : a ≤ k := hbound a ha (k, v) (by simp)
        have hne : a ≠ k := fun h => hmem (h ▸ ha)
        rw [hb]
        omega
    · intro k' hk' q hq
      rw [mem_dKeys_dictAppend] at hk'
      rcases hk' with hk' | hk'
      · exact hbound k' hk' q (by simp [hq])
      · subst hk'
        exact hops.1 q.1 (List.mem_map_of_mem _ hq)

theorem fromPairs_docs_list (ops : List (Nat × Nat)) :
    ∀ dict : List (Nat × List Nat),
      (ops.foldl (fun (ds : DocSet) p => ds.append p.1 p.2) (DocSet.mk dict)).docs_list
        = foldAppend dict ops := by
  induction ops with
  | nil => intro dict; rfl
  | cons p t ih =>
    intro dict
    exact ih (dictAppend dict p.1 p.2)

theorem zip_map_fst_snd {α β : Type} (l : List (α × β)) :
    (l.map (fun p => p.1)).zip (l.map (fun p => p.2)) = l := by
  induction l with
  | nil => rfl
  | cons p t ih => simp [ih]

/-! ### Claims C9 and C3 -/

/-- C9: encoding a DocSet to which no pairs were ever appended yields an
empty byte sequence, and decoding an empty or single-byte input yields an
empty DocSet. -/
theorem encode_empty_decode_small :
    (fromPairs []).encode = .ok [] ∧
    ∀ b : Nat, DocSet.decode [] = fromPairs [] ∧ DocSet.decode [b] = fromPairs [] := by
  refine ⟨rfl, ?_⟩
  intro b
  exact ⟨rfl, rfl⟩

theorem pairLe_fst_le {a b : Nat × Nat} (h : pairLe a b) : a.1 ≤ b.1 := by
  unfold pairLe at h; omega

theorem dPairs_fromPairs (ops : List (Nat × Nat)) :
    List.Perm (dPairs (fromPairs ops).docs_list) ops := by
  rw [fromPairs, fromPairs_docs_list ops []]
  simpa [dPairs] using dPairs_foldAppend ops []

theorem fromPairs_eq_nil_iff (ops : List (Nat × Nat)) :
    (fromPairs ops).docs_list.isEmpty = true ↔ ops = [] := by
  rw [List.isEmpty_iff]
  constructor
  · intro h
    have hperm := dPairs_fromPairs ops
    rw [h] at hperm
    exact (hperm.symm.eq_nil)
  · intro h
    subst h
    rfl

theorem encode_eq_error (ds : DocSet) (h1 : ds.docs_list.isEmpty = false)
    (h2 : (((dPairs ds.docs_list).insertionSort pairLe).map (fun v => v.2)).any
      (fun x => decide (SEPARATOR ≤ x)) = true) :
    ds.encode = .error "Positions can\x27t be greater than 254." := by
  simp only [DocSet.encode, h1, Bool.false_eq_true, if_false, h2, if_true]

theorem encode_eq_ok (ds : DocSet) (h1 : ds.docs_list.isEmpty = false)
    (h2 : (((dPairs ds.docs_list).insertionSort pairLe).map (fun v => v.2)).any
      (fun x => decide (SEPARATOR ≤ x)) = false) :
    ds.encode = .ok
      ((((dPairs ds.docs_list).insertionSort pairLe).map (fun v => v.2) ++ [SEPARATOR])
        ++ DocSet.delta_encode (((dPairs ds.docs_list).insertionSort pairLe).map (fun v => v.1))) := by
  simp only [DocSet.encode, h1, Bool.false_eq_true, if_false, h2]

/-- C3: encoding a DocSet built by appends fails, with the InvalidPosition
error message, exactly when some appended pair has position ≥ 255; when
every position is < 255 it returns a byte string. -/
theorem encode_invalid_position (ops : List (Nat × Nat)) :
    ((∃ e, (fromPairs ops).encode = .error e) ↔ ∃ p ∈ ops, 255 ≤ p.2) ∧
    ((∃ p ∈ ops, 255 ≤ p.2) →
      (fromPairs ops).encode = .error "Positions can\x27t be greater than 254.") ∧
    ((∀ p ∈ ops, p.2 < 255) → ∃ bs, (fromPairs ops).encode = .ok bs) := by
  have hsp : List.Perm ((dPairs (fromPairs ops).docs_list).insertionSort pairLe) ops :=
    (List.perm_insertionSort _ _).trans (dPairs_fromPairs ops)
  by_cases hemp : (fromPairs ops).docs_list.isEmpty = true
  · have hops : ops = [] := (fromPairs_eq_nil_iff ops).mp hemp
    subst hops
    refine ⟨?_, ?_, ?_⟩
    · have henc : (fromPairs ([] : List (Nat × Nat))).encode = .ok [] := rfl
      rw [henc]
      simp
    · simp
    · intro _
      exact ⟨[], rfl⟩
  · have hempf : (fromPairs ops).docs_list.isEmpty = false := by
      cases h : (fromPairs ops).docs_list.isEmpty
      · rfl
      · exact absurd h hemp
    have hany : ((((dPairs (fromPairs ops).docs_list).insertionSort pairLe).map
          (fun v => v.2)).any (fun x => decide (SEPARATOR ≤ x)) = true)
        ↔ ∃ p ∈ ops, 255 ≤ p.2 := by
      rw [List.any_eq_true]
      constructor
      · rintro ⟨x, hx, hle⟩
        rw [List.mem_map] at hx
        obtain ⟨p, hp, rfl⟩ := hx
        refine ⟨p, hsp.mem_iff.mp hp, ?_⟩
        simpa [SEPARATOR] using hle
      · rintro ⟨p, hp, hle⟩
        refine ⟨p.2, List.mem_map_of_mem _ (hsp.mem_iff.mpr hp), ?_⟩
        simpa [SEPARATOR] using hle
    by_cases hcheck : (((dPairs (fromPairs ops).docs_list).insertionSort pairLe).map
        (fun v => v.2)).any (fun x => decide (SEPARATOR ≤ x)) = true
    · have henc := encode_eq_error (fromPairs ops) hempf hcheck
      refine ⟨?_, ?_, ?_⟩
      · rw [henc]
        constructor
        · intro _; exact hany.mp hcheck
        · intro _; exact ⟨_, rfl⟩
      · intro _; exact henc
      · intro hall
        obtain ⟨p, hp, hge⟩ := hany.mp hcheck
        have := hall p hp
        omega
    · have hcheckf : (((dPairs (fromPairs ops).docs_list).insertionSort pairLe).map
          (fun v => v.2)).any (fun x => decide (SEPARATOR ≤ x)) = false := by
        cases h : (((dPairs (fromPairs ops).docs_list).insertionSort pairLe).map
            (fun v => v.2)).any (fun x => decide (SEPARATOR ≤ x))
        · rfl
        · exact absurd h hcheck
      have henc := encode_eq_ok (fromPairs ops) hempf hcheckf
      refine ⟨?_, ?_, ?_⟩
      · rw [henc]
        constructor
        · rintro ⟨e, he⟩
          exact absurd he (by simp)
        · intro hex
          exact absurd (hany.mpr hex) hcheck
      · intro hex
        exact absurd (hany.mpr hex) hcheck
      · intro _
        exact ⟨_, henc⟩

theorem encode_invalid_position_witness :
    (fromPairs [(0, 255)]).encode = .error "Positions can\x27t be greater than 254." ∧
    ∃ bs, (fromPairs [(0, 3)]).encode = .ok bs :=
  ⟨(encode_invalid_position [(0, 255)]).2.1 ⟨(0, 255), by decide, by decide⟩,
    (encode_invalid_position [(0, 3)]).2.2 (by decide)⟩

/-! ### Claim C1 -/

theorem delta_encode_nil : DocSet.delta_encode [] = [] := rfl

/-- Decoding the byte string `encode` produces for a sorted pair list
rebuilds exactly the dictionary obtained by appending the sorted pairs
in order. -/
theorem decode_of_sorted (S : List (Nat × Nat)) (hpw : S.Pairwise pairLe)
    (hlt : ∀ p ∈ S, p.2 < 255) :
    DocSet.decode ((S.map (fun v => v.2) ++ [SEPARATOR])
        ++ DocSet.delta_encode (S.map (fun v => v.1)))
      = ⟨foldAppend [] S⟩ := by
  cases hS : S with
  | nil => rfl
  | cons p0 T =>
    rw [← hS]
    have hSne : S ≠ [] := by rw [hS]; exact List.cons_ne_nil _ _
    have hfst : (S.map (fun p => p.1)).Pairwise (· ≤ ·) := by
      rw [List.pairwise_map]
      exact hpw.imp (fun h => pairLe_fst_le h)
    have hlen : ¬ (((S.map (fun v => v.2) ++ [SEPARATOR])
        ++ DocSet.delta_encode (S.map (fun v => v.1))).length ≤ 1) := by
      have h1 : (S.map (fun v => v.2)).length = S.length := List.length_map _ _
      have h2 : 1 ≤ S.length := by
        rw [hS]; simp
      simp only [List.length_append, List.length_cons, List.length_nil, h1]
      omega
    have hsep : SEPARATOR ∉ S.map (fun v => v.2) := by
      intro hmem
      rw [List.mem_map] at hmem
      obtain ⟨p, hp, hv⟩ := hmem
      have := hlt p hp
      rw [SEPARATOR] at hv
      omega
    have hidx : ((S.map (fun v => v.2) ++ [SEPARATOR])
        ++ DocSet.delta_encode (S.map (fun v => v.1))).indexOf SEPARATOR
        = (S.map (fun v => v.2)).length := by
      rw [List.append_assoc, List.indexOf_append_of_not_mem hsep, List.singleton_append,
        List.indexOf_cons_self]
      omega
    have htake : ((S.map (fun v => v.2) ++ [SEPARATOR])
        ++ DocSet.delta_encode (S.map (fun v => v.1))).take (S.map (fun v => v.2)).length
        = S.map (fun v => v.2) := by
      rw [List.append_assoc, List.take_left]
    have hdrop : ((S.map (fun v => v.2) ++ [SEPARATOR])
        ++ DocSet.delta_encode (S.map (fun v => v.1))).drop ((S.map (fun v => v.2)).length + 1)
        = DocSet.delta_encode (S.map (fun v => v.1)) := by
      have hl : (S.map (fun v => v.2) ++ [SEPARATOR]).length
          = (S.map (fun v => v.2)).length + 1 := by simp
      rw [← hl, List.drop_left]
    have hdd : DocSet.delta_decode (DocSet.delta_encode (S.map (fun v => v.1)))
        = S.map (fun v => v.1) :=
      delta_aux_roundtrip _ 0 (chain_of_pairwise_le hfst)
    rw [DocSet.decode, if_neg hlen]
    simp only [hidx, htake, hdrop, hdd, zip_map_fst_snd]
    rfl

/-- Rebuilding a dictionary from a sorted permutation of the appended
pairs yields, per docid, the same positions up to permutation, now in
ascending order, with strictly ascending docids and the same docid set. -/
theorem decoded_props (S ops : List (Nat × Nat)) (hsp : List.Perm S ops)
    (hpw : S.Pairwise pairLe) :
    (∀ d, List.Perm ((DocSet.mk (foldAppend [] S)).posOf d) ((fromPairs ops).posOf d) ∧
      ((DocSet.mk (foldAppend [] S)).posOf d).Pairwise (· ≤ ·)) ∧
    (DocSet.mk (foldAppend [] S)).keysOf.Pairwise (· < ·) ∧
    (∀ d, d ∈ (DocSet.mk (foldAppend [] S)).keysOf ↔ d ∈ (fromPairs ops).keysOf) := by
  have hdocs : (fromPairs ops).docs_list = foldAppend [] ops :=
    fromPairs_docs_list ops []
  have hfstS : (S.map (fun p => p.1)).Pairwise (· ≤ ·) := by
    rw [List.pairwise_map]
    exact hpw.imp (fun h => pairLe_fst_le h)
  refine ⟨?_, ?_, ?_⟩
  · intro d
    have hy : (DocSet.mk (foldAppend [] S)).posOf d
        = (S.filter (fun p => decide (p.1 = d))).map (fun p => p.2) := by
      show dGet (foldAppend [] S) d = _
      rw [dGet_foldAppend]
      rfl
    have hx : (fromPairs ops).posOf d
        = (ops.filter (fun p => decide (p.1 = d))).map (fun p => p.2) := by
      show dGet (fromPairs ops).docs_list d = _
      rw [hdocs, dGet_foldAppend]
      rfl
    constructor
    · rw [hy, hx]
      exact (hsp.filter _).map _
    · rw [hy]
      rw [List.pairwise_map]
      refine List.Pairwise.imp_of_mem ?_ (hpw.filter _)
      intro a b ha hb hab
      have ha' := (List.mem_filter.mp ha).2
      have hb' := (List.mem_filter.mp hb).2
      rw [decide_eq_true_eq] at ha' hb'
      unfold pairLe at hab
      omega
  · show (dKeys (foldAppend [] S)).Pairwise (· < ·)
    refine dKeys_sorted_foldAppend _ [] hfstS List.Pairwise.nil ?_
    intro k hk
    simp [dKeys] at hk
  · intro d
    have hy : d ∈ (DocSet.mk (foldAppend [] S)).keysOf ↔ d ∈ S.map (fun p => p.1) := by
      show d ∈ dKeys (foldAppend [] S) ↔ _
      rw [mem_dKeys_foldAppend]
      simp [dKeys]
    have hx : d ∈ (fromPairs ops).keysOf ↔ d ∈ ops.map (fun p => p.1) := by
      show d ∈ dKeys (fromPairs ops).docs_list ↔ _
      rw [hdocs, mem_dKeys_foldAppend]
      simp [dKeys]
    rw [hy, hx]
    exact (hsp.map (fun p => p.1)).mem_iff

/-- C1: for a DocSet built by any sequence of `append(docid, position)`
calls with every position < 255, `encode` succeeds and decoding its output
yields, for every docid, the same positions up to permutation, with each
docid's positions in ascending order, the docids in strictly ascending
order, and exactly the docids that were inserted. -/
theorem docset_roundtrip (ops : List (Nat × Nat)) (hpos : ∀ p ∈ ops, p.2 < 255) :
    ∃ enc, (fromPairs ops).encode = .ok enc ∧
      (∀ d, List.Perm ((DocSet.decode enc).posOf d) ((fromPairs ops).posOf d) ∧
        ((DocSet.decode enc).posOf d).Pairwise (· ≤ ·)) ∧
      (DocSet.decode enc).keysOf.Pairwise (· < ·) ∧
      (∀ d, d ∈ (DocSet.decode enc).keysOf ↔ d ∈ (fromPairs ops).keysOf) := by
  by_cases hops : ops = []
  · subst hops
    refine ⟨[], rfl, ?_, ?_, ?_⟩
    · intro d
      exact ⟨List.Perm.refl _, List.Pairwise.nil⟩
    · exact List.Pairwise.nil
    · intro d
      exact Iff.rfl
  · have hempf : (fromPairs ops).docs_list.isEmpty = false := by
      cases h : (fromPairs ops).docs_list.isEmpty
      · rfl
      · exact absurd ((fromPairs_eq_nil_iff ops).mp h) hops
    have hsp : List.Perm ((dPairs (fromPairs ops).docs_list).insertionSort pairLe) ops :=
      (List.perm_insertionSort _ _).trans (dPairs_fromPairs ops)
    have hpw : ((dPairs (fromPairs ops).docs_list).insertionSort pairLe).Pairwise pairLe :=
      List.sorted_insertionSort _ _
    have hltS : ∀ p ∈ (dPairs (fromPairs ops).docs_list).insertionSort pairLe, p.2 < 255 :=
      fun p hp => hpos p (hsp.mem_iff.mp hp)
    have hcheckf : (((dPairs (fromPairs ops).docs_list).insertionSort pairLe).map
        (fun v => v.2)).any (fun x => decide (SEPARATOR ≤ x)) = false := by
      rw [List.any_eq_false]
      intro x hx
      rw [List.mem_map] at hx
      obtain ⟨p, hp, rfl⟩ := hx
      have := hltS p hp
      simp only [decide_eq_true_eq, SEPARATOR]
      omega
    have henc := encode_eq_ok (fromPairs ops) hempf hcheckf
    have hdec := decode_of_sorted _ hpw hltS
    refine ⟨_, henc, ?_⟩
    rw [hdec]
    exact decoded_props _ ops hsp hpw

theorem docset_roundtrip_witness :
    (∀ p ∈ [(3, 1), (1, 2), (3, 0)], p.2 < 255) ∧
    (∃ enc, (fromPairs [(3, 1), (1, 2), (3, 0)]).encode = .ok enc ∧
      (∀ d, List.Perm ((DocSet.decode enc).posOf d)
          ((fromPairs [(3, 1), (1, 2), (3, 0)]).posOf d) ∧
        ((DocSet.decode enc).posOf d).Pairwise (· ≤ ·)) ∧
      (DocSet.decode enc).keysOf.Pairwise (· < ·) ∧
      (∀ d, d ∈ (DocSet.decode enc).keysOf
        ↔ d ∈ (fromPairs [(3, 1), (1, 2), (3, 0)]).keysOf)) :=
  ⟨by decide, docset_roundtrip [(3, 1), (1, 2), (3, 0)] (by decide)⟩

/-! ### Documents, filenames, and the build pipeline -/

/-- Source document record: filename (None meaning "derive from the
title"), title, then uninterpreted payload fields. -/
structure Doc where
  filename : Option String
  title : String
  extra : List String
deriving DecidableEq

/-- Stored document record: the source record with the page score
appended at the end (`data = list(data) + [page_score]`). -/
structure StoredDoc where
  filename : Option String
  title : String
  extra : List String
  score : Int
deriving DecidableEq

/-- Build input triple `(words, page_score, record)`. -/
def Entry : Type := List String × Int × Doc

instance : DecidableEq Entry := by
  unfold Entry; infer_instance

/-- Modelled from the spec: `to3dirs.get_path_file`, the deterministic
title-to-path 3-level directory sharding helper that sqlite_index.py
imports from outside this repository's sources; the spec only requires
a fixed deterministic function from the normalized title to a directory
prefix and a file name. -/
def get_path_file (tt : String) : String × String :=
  (String.mk (tt.data.take 3), tt)

/-- to_filename: replace spaces by underscores (a single-character
replacement, modelled as a character map), uppercase the first character
(the Python len >= 2 and len == 1 branches do the same thing), then join
the sharded directory and file name with the path separator; the empty
title raises ValueError, modelled as `none`. -/
def to_filename (title : String) : Option String :=
  let tt := String.mk (title.data.map (fun c => if c = ' ' then '_' else c))
  match tt.data with
  | [] => none
  | c :: cs =>
    let tt2 := String.mk (Char.toUpper c :: cs)
    let pf := get_path_file tt2
    some (pf.1 ++ "/" ++ pf.2)

/-- One row of the `docs` table: pageid, the per-document word-count
bytes, and the page's record block (pickling and lzma compression and
the matching decompression are modelled as the identity, the serializer
being lossless). -/
structure PageRow where
  pageid : Nat
  word_quants : List Nat
  data : List StoredDoc
deriving DecidableEq

/-- The persisted index artifact: the `tokens` table (word, encoded
DocSet), the `docs` table, and the value `Index.create` returns
(`dict_stats["Indexed"]`). -/
structure IndexDB where
  tokens : List (String × List Nat)
  pages : List PageRow
  indexed : Nat
deriving DecidableEq

/-- SQLmany/Compressed append-flush loop for the docs table: `count`
records appended so far, `buffer` not yet persisted; every PAGE_SIZE
appends a page is persisted with `page_id = (count - 1) / PAGE_SIZE`,
word quantities and records in buffer order, and `finish` persists the
remaining short last page. -/
def buildDocsTable : List (Nat × StoredDoc) → Nat → List (Nat × StoredDoc) → List PageRow
  | [], count, buffer =>
    if buffer.isEmpty then []
    else [⟨(count - 1) / PAGE_SIZE, buffer.map (fun p => p.1), buffer.map (fun p => p.2)⟩]
  | d :: rest, count, buffer =>
    let buffer' := buffer ++ [d]
    let count' := count + 1
    if count' % PAGE_SIZE = 0 then
      ⟨(count' - 1) / PAGE_SIZE, buffer'.map (fun p => p.1), buffer'.map (fun p => p.2)⟩
        :: buildDocsTable rest count' []
    else
      buildDocsTable rest count' buffer'

/-- order_source: bucket the source into an insertion-ordered dictionary
keyed by score, nulling the filename field of a record when it equals
the filename derived from its title; `to_filename` raising on an empty
title aborts the build. The `quant` counter only feeds the progress
bar and is not modelled. -/
def order_source : List Entry → List (Int × List Entry) → Except String (List (Int × List Entry))
  | [], acc => .ok acc
  | (words, page_score, data) :: rest, acc =>
    match to_filename data.title with
    | none => .error "Title must have at least one character"
    | some fn =>
      let data' := if data.filename = some fn then { data with filename := none } else data
      order_source rest (dictAppend acc page_score (words, page_score, data'))

/-- Descending order on scores (`sorted(keys, reverse=True)`). -/
def scoreGe (a b : Int) : Prop := b ≤ a

instance : DecidableRel scoreGe := by
  intro a b; unfold scoreGe; infer_instance

instance : IsTotal Int scoreGe := by
  constructor; intro a b; unfold scoreGe; omega

instance : IsTrans Int scoreGe := by
  constructor; intro a b c; unfold scoreGe; omega

/-- gen_ordered: yield the buckets by descending score, each bucket in
insertion order. -/
def gen_ordered (osrc : List (Int × List Entry)) : List Entry :=
  ((dKeys osrc).insertionSort scoreGe).flatMap (fun sc => dGet osrc sc)

/-- The stored record of an emitted entry: the (already normalized)
record with the page score appended. -/
def mkStored (e : Entry) : StoredDoc :=
  ⟨e.2.2.filename, e.2.2.title, e.2.2.extra, e.2.1⟩

/-- `idx_dict[word].append(docid, idx)` on the `defaultdict(DocSet)`. -/
def dsDictAppend : List (String × DocSet) → String → Nat → Nat → List (String × DocSet)
  | [], w, docid, idx => [(w, DocSet.append ⟨[]⟩ docid idx)]
  | (w', ds) :: rest, w, docid, idx =>
    if w = w' then (w', ds.append docid idx) :: rest
    else (w', ds) :: dsDictAppend rest w docid idx

/-- add_docs_keys: per emitted document (docid = zero-based emission
index, the value `docs_table.append` returns), append
`(len(words), record + [score])` to the docs table and accumulate
`(docid, word_position)` into each word's DocSet; the non-monotonic
score check only prints. The docs-table appends and the DocSet appends
are interleaved in Python but touch disjoint state. -/
def add_docs_keys (emitted : List Entry) : List PageRow × List (String × DocSet) :=
  (buildDocsTable (emitted.map (fun e => (e.1.length, mkStored e))) 0 [],
    (emitted.enum).foldl
      (fun dict ie =>
        (ie.2.1.enum).foldl (fun d2 iw => dsDictAppend d2 iw.2 ie.1 iw.1) dict)
      [])

/-- add_tokens_to_db: one tokens row per word, in dictionary order; the
sqlite adapter runs `DocSet.encode` when persisting, so an
InvalidPosition error aborts the build. -/
def add_tokens_to_db (idx : List (String × DocSet)) :
    Except String (List (String × List Nat)) :=
  idx.mapM (fun p => (p.2.encode).map (fun bs => (p.1, bs)))

/-- Index.create: order the source, emit by descending score, build the
docs pages and per-word DocSets, persist the tokens, and return the
database together with `dict_stats["Indexed"]`, the sum over words of
`len(docset)` accumulated in `add_tokens_to_db` and returned by
`create`. Database/secondary-index creation and vacuum only touch the
storage engine. -/
def Index.create (source : List Entry) : Except String IndexDB := do
  let osrc ← order_source source []
  let emitted := gen_ordered osrc
  let pk := add_docs_keys emitted
  let tokens ← add_tokens_to_db pk.2
  return ⟨tokens, pk.1, (pk.2.map (fun p => p.2.len)).sum⟩

/-! ### Index reader -/

/-- Index._get_page: primary-key lookup of the page row, returning its
decompressed record block, or None when the page id does not exist (the
lru_cache only affects performance). -/
def Index.getPage (db : IndexDB) (pageid : Nat) : Option (List StoredDoc) :=
  (db.pages.find? (fun r => r.pageid == pageid)).map (fun r => r.data)

/-- Filename back-fill performed by get_doc when the stored filename is
None; a failing `to_filename` (empty stored title) propagates as a
raised error. -/
def backfill (r : StoredDoc) : Except Unit StoredDoc :=
  match r.filename with
  | some _ => .ok r
  | none =>
    match to_filename r.title with
    | some fn => .ok { r with filename := some fn }
    | none => .error ()

/-- Index.get_doc: `(page_id, rel_position) = divmod(docid, PAGE_SIZE)`;
`.ok none` models Python's `return None` on a missing (or empty, `if not
data`) page, `.error ()` models an uncaught exception: the IndexError of
`data[rel_position]` when the offset is beyond the page's records, or a
failing back-fill. -/
def Index.get_doc (db : IndexDB) (docid : Nat) : Except Unit (Option StoredDoc) :=
  match Index.getPage db (docid / PAGE_SIZE) with
  | none => .ok none
  | some data =>
    if data.isEmpty then .ok none
    else
      match data[docid % PAGE_SIZE]? with
      | none => .error ()
      | some row => (backfill row).map (fun r => some r)

/-- The row `SELECT ... ORDER BY pageid DESC LIMIT 1` returns: the row
with the maximal pageid; `none` on an empty docs table (where Python's
`__len__` would raise on `row[1]`). -/
def maxPageRow (pages : List PageRow) : Option PageRow :=
  match pages with
  | [] => none
  | p :: rest => some (rest.foldl (fun a b => if a.pageid < b.pageid then b else a) p)

/-- Index.__len__: pageid of the highest page times PAGE_SIZE plus the
record count of that page (the lru_cache only affects performance). -/
def Index.len (db : IndexDB) : Option Nat :=
  (maxPageRow db.pages).map (fun r => r.pageid * PAGE_SIZE + r.data.length)

/-- Index.keys: the word column of the tokens table. -/
def Index.keys (db : IndexDB) : List String := db.tokens.map (fun p => p.1)

/-- Ascending pageid order used by `SELECT ... ORDER BY pageid`. -/
def pageLe (a b : PageRow) : Prop := a.pageid ≤ b.pageid

instance : DecidableRel pageLe := by
  intro a b; unfold pageLe; infer_instance

instance : IsTotal PageRow pageLe := by
  constructor; intro a b; unfold pageLe; omega

instance : IsTrans PageRow pageLe := by
  constructor; intro a b c; unfold pageLe; omega

/-- Index.values: pages in ascending pageid order, each decompressed and
its records yielded in order (no filename back-fill on this path). -/
def Index.values (db : IndexDB) : List StoredDoc :=
  ((db.pages.insertionSort pageLe).map (fun r => r.data)).flatten

/-! ### Page layout produced by the docs-table build -/

/-- Reference page layout: consecutive PAGE_SIZE chunks of the appended
`(word_quant, record)` stream, page ids starting at `k`. -/
def chunkPages (l : List (Nat × StoredDoc)) (k : Nat) : List PageRow :=
  (List.range ((l.length + (PAGE_SIZE - 1)) / PAGE_SIZE)).map
    (fun i => ⟨k + i, ((l.drop (PAGE_SIZE * i)).take PAGE_SIZE).map (fun p => p.1),
      ((l.drop (PAGE_SIZE * i)).take PAGE_SIZE).map (fun p => p.2)⟩)

theorem chunkPages_nil (k : Nat) : chunkPages [] k = [] := rfl

theorem chunkPages_small (l : List (Nat × StoredDoc)) (k : Nat) (h1 : l ≠ [])
    (h2 : l.length ≤ PAGE_SIZE) :
    chunkPages l k = [⟨k, l.map (fun p => p.1), l.map (fun p => p.2)⟩] := by
  have hpos : 1 ≤ l.length := by
    cases l with
    | nil => exact absurd rfl h1
    | cons a t => simp
  have hn : (l.length + (PAGE_SIZE - 1)) / PAGE_SIZE = 1 := by
    rw [PAGE_SIZE] at h2 ⊢
    omega
  rw [chunkPages, hn]
  have hr1 : List.range 1 = [0] := by decide
  rw [hr1]
  simp only [List.map_cons, List.map_nil, Nat.mul_zero, List.drop_zero,
    Nat.add_zero, List.take_of_length_le h2]

theorem chunkPages_cons (C rest : List (Nat × StoredDoc)) (k : Nat)
    (hC : C.length = PAGE_SIZE) :
    chunkPages (C ++ rest) k
      = ⟨k, C.map (fun p => p.1), C.map (fun p => p.2)⟩ :: chunkPages rest (k + 1) := by
  have hlen : (C ++ rest).length = PAGE_SIZE + rest.length := by
    simp [hC]
  have hn : ((C ++ rest).length + (PAGE_SIZE - 1)) / PAGE_SIZE
      = ((rest.length + (PAGE_SIZE - 1)) / PAGE_SIZE) + 1 := by
    rw [hlen, PAGE_SIZE]
    omega
  rw [chunkPages, hn, List.range_succ_eq_map, List.map_cons]
  congr 1
  · have hdrop : (C ++ rest).drop (PAGE_SIZE * 0) = C ++ rest := by simp
    have htake : (C ++ rest).take PAGE_SIZE = C := by
      rw [← hC]
      exact List.take_left C rest
    rw [hdrop] at *
    simp only [Nat.mul_zero, List.drop_zero, htake, Nat.add_zero]
  · rw [List.map_map, chunkPages]
    refine List.map_congr_left ?_
    intro i _
    have hdrop : (C ++ rest).drop (PAGE_SIZE * Nat.succ i) = rest.drop (PAGE_SIZE * i) := by
      have : PAGE_SIZE * Nat.succ i = C.length + PAGE_SIZE * i := by
        rw [hC, Nat.succ_eq_add_one]
        ring
      rw [this, List.drop_append]
    simp only [Function.comp_apply, hdrop, Nat.succ_eq_add_one]
    congr 1
    omega

theorem buildDocsTable_eq (l : List (Nat × StoredDoc)) :
    ∀ (k : Nat) (buffer : List (Nat × StoredDoc)),
      buffer.length < PAGE_SIZE →
      buildDocsTable l (PAGE_SIZE * k + buffer.length) buffer = chunkPages (buffer ++ l) k := by
  induction l with
  | nil =>
    intro k buffer hlt
    by_cases hb : buffer.isEmpty
    · rw [List.isEmpty_iff] at hb
      subst hb
      simp [buildDocsTable, chunkPages_nil]
    · have hbne : buffer ≠ [] := by
        intro h
        rw [h] at hb
        exact hb rfl
      have hbpos : 1 ≤ buffer.length := by
        cases buffer with
        | nil => exact absurd rfl hbne
        | cons a t => simp
      have hbe : buffer.isEmpty = false := by
        cases h : buffer.isEmpty
        · rfl
        · exact absurd h hb
      have hpid : (PAGE_SIZE * k + buffer.length - 1) / PAGE_SIZE = k := by
        rw [PAGE_SIZE] at *
        omega
      simp only [buildDocsTable, hbe, Bool.false_eq_true, if_false, hpid, List.append_nil]
      rw [chunkPages_small buffer k hbne (by omega)]
  | cons d rest ih =>
    intro k buffer hlt
    by_cases hfull : (PAGE_SIZE * k + buffer.length + 1) % PAGE_SIZE = 0
    · have hblen : buffer.length = PAGE_SIZE - 1 := by
        rw [PAGE_SIZE] at *
        omega
      have hb'len : (buffer ++ [d]).length = PAGE_SIZE := by
        simp only [List.length_append, List.length_cons, List.length_nil]
        omega
      have hpid : (PAGE_SIZE * k + buffer.length + 1 - 1) / PAGE_SIZE = k := by
        rw [PAGE_SIZE] at *
        omega
      have hcount : PAGE_SIZE * k + buffer.length + 1
          = PAGE_SIZE * (k + 1) + ([] : List (Nat × StoredDoc)).length := by
        simp only [List.length_nil, Nat.add_zero, PAGE_SIZE] at *
        omega
      simp only [buildDocsTable, hfull, if_true, hpid]
      rw [hcount, ih (k + 1) [] (by simp [PAGE_SIZE])]
      rw [List.nil_append]
      have hassoc : buffer ++ d :: rest = (buffer ++ [d]) ++ rest := by simp
      rw [hassoc, chunkPages_cons _ _ _ hb'len]
    · have hblt : buffer.length + 1 < PAGE_SIZE := by
        rw [PAGE_SIZE] at *
        omega
      have hcount : PAGE_SIZE * k + buffer.length + 1
          = PAGE_SIZE * k + (buffer ++ [d]).length := by
        simp only [List.length_append, List.length_cons, List.length_nil]
        omega
      simp only [buildDocsTable, hfull, if_false]
      rw [hcount, ih k (buffer ++ [d]) (by simpa using hblt)]
      congr 1
      simp

/-- The docs table produced by the build is the PAGE_SIZE-chunking of the
appended stream, with zero-based sequential page ids. -/
theorem buildDocsTable_spec (l : List (Nat × StoredDoc)) :
    buildDocsTable l 0 [] = chunkPages l 0 := by
  have h := buildDocsTable_eq l 0 [] (by simp [PAGE_SIZE])
  simpa using h

theorem find_range_map (q : Nat) : ∀ (n k : Nat) (g : Nat → PageRow),
    (∀ i, (g i).pageid = k + i) →
    ((List.range n).map g).find? (fun r => r.pageid == q)
      = if k ≤ q ∧ q < k + n then some (g (q - k)) else none := by
  intro n
  induction n with
  | zero =>
    intro k g _
    rw [if_neg (by omega)]
    rfl
  | succ m ih =>
    intro k g hg
    rw [List.range_succ_eq_map, List.map_cons]
    by_cases hkq : k = q
    · subst hkq
      have hp : (fun r : PageRow => r.pageid == k) (g 0) = true := by
        simp only [hg 0, Nat.add_zero]
        simp
      rw [@List.find?_cons_of_pos PageRow (fun r => r.pageid == k) (g 0) _ hp,
        if_pos (by omega)]
      rw [Nat.sub_self]
    · have hp : ¬ ((fun r : PageRow => r.pageid == q) (g 0) = true) := by
        simp only [hg 0, Nat.add_zero, beq_iff_eq]
        exact hkq
      rw [@List.find?_cons_of_neg PageRow (fun r => r.pageid == q) (g 0) _ hp, List.map_map]
      have hcomp : g ∘ Nat.succ = fun i => g (Nat.succ i) := rfl
      rw [hcomp, ih (k + 1) (fun i => g (Nat.succ i)) (fun i => by rw [hg]; omega)]
      by_cases hin : k + 1 ≤ q ∧ q < k + 1 + m
      · rw [if_pos hin, if_pos (by omega)]
        have hsq : Nat.succ (q - (k + 1)) = q - k := by omega
        rw [hsq]
      · rw [if_neg hin, if_neg (by omega)]

theorem maxPageRow_sorted : ∀ (rest : List PageRow) (p : PageRow),
    (((p :: rest).map (fun r => r.pageid)).Pairwise (· < ·)) →
    maxPageRow (p :: rest) = (p :: rest).getLast? := by
  intro rest
  induction rest with
  | nil => intro p _; rfl
  | cons q rest' ih =>
    intro p hpw
    have hpq : p.pageid < q.pageid := by
      rw [List.map_cons, List.pairwise_cons] at hpw
      exact hpw.1 q.pageid (by simp)
    have hstep : maxPageRow (p :: q :: rest') = maxPageRow (q :: rest') := by
      simp [maxPageRow, List.foldl_cons, hpq]
    rw [hstep, ih q ?_, List.getLast?_cons_cons]
    rw [List.map_cons, List.pairwise_cons] at hpw
    exact hpw.2

theorem maxPageRow_of_sorted (pages : List PageRow)
    (h : (pages.map (fun r => r.pageid)).Pairwise (· < ·)) :
    maxPageRow pages = pages.getLast? := by
  cases pages with
  | nil => rfl
  | cons p rest => exact maxPageRow_sorted rest p h

theorem chunkPages_pageids (l : List (Nat × StoredDoc)) (k : Nat) :
    (chunkPages l k).map (fun r => r.pageid)
      = (List.range ((l.length + (PAGE_SIZE - 1)) / PAGE_SIZE)).map (fun i => k + i) := by
  rw [chunkPages, List.map_map]
  rfl

theorem chunkPages_pageids_lt (l : List (Nat × StoredDoc)) (k : Nat) :
    ((chunkPages l k).map (fun r => r.pageid)).Pairwise (· < ·) := by
  rw [chunkPages_pageids, List.pairwise_map]
  exact (List.pairwise_lt_range _).imp (fun h => by omega)

theorem find_chunkPages (l : List (Nat × StoredDoc)) (q : Nat) :
    ((chunkPages l 0).find? (fun r => r.pageid == q)).map (fun r => r.data)
      = if PAGE_SIZE * q < l.length then
          some (((l.drop (PAGE_SIZE * q)).take PAGE_SIZE).map (fun p => p.2))
        else none := by
  rw [chunkPages, find_range_map q _ 0 _ (fun i => rfl)]
  by_cases h : PAGE_SIZE * q < l.length
  · have hq : 0 ≤ q ∧ q < 0 + (l.length + (PAGE_SIZE - 1)) / PAGE_SIZE := by
      refine ⟨Nat.zero_le q, ?_⟩
      rw [PAGE_SIZE] at *
      omega
    rw [if_pos hq, if_pos h, Option.map_some']
    rw [Nat.sub_zero]
  · have hq : ¬ (0 ≤ q ∧ q < 0 + (l.length + (PAGE_SIZE - 1)) / PAGE_SIZE) := by
      rw [PAGE_SIZE] at *
      omega
    rw [if_neg hq, if_neg h, Option.map_none']

theorem getLast_chunkPages (l : List (Nat × StoredDoc)) (h : l ≠ []) :
    (chunkPages l 0).getLast?
      = some ⟨(l.length + (PAGE_SIZE - 1)) / PAGE_SIZE - 1,
          ((l.drop (PAGE_SIZE * ((l.length + (PAGE_SIZE - 1)) / PAGE_SIZE - 1))).take
            PAGE_SIZE).map (fun p => p.1),
          ((l.drop (PAGE_SIZE * ((l.length + (PAGE_SIZE - 1)) / PAGE_SIZE - 1))).take
            PAGE_SIZE).map (fun p => p.2)⟩ := by
  have hpos : 1 ≤ l.length := by
    cases l with
    | nil => exact absurd rfl h
    | cons a t => simp
  obtain ⟨m, hm⟩ : ∃ m, (l.length + (PAGE_SIZE - 1)) / PAGE_SIZE = m + 1 := by
    refine ⟨(l.length + (PAGE_SIZE - 1)) / PAGE_SIZE - 1, ?_⟩
    rw [PAGE_SIZE] at *
    omega
  rw [chunkPages, hm, List.range_succ, List.map_append, List.map_cons, List.map_nil,
    List.getLast?_concat]
  simp only [Nat.zero_add, Nat.add_sub_cancel]

theorem len_chunkPages (l : List (Nat × StoredDoc)) (h : l ≠ []) :
    (maxPageRow (chunkPages l 0)).map (fun r => r.pageid * PAGE_SIZE + r.data.length)
      = some l.length := by
  have hpos : 1 ≤ l.length := by
    cases l with
    | nil => exact absurd rfl h
    | cons a t => simp
  rw [maxPageRow_of_sorted _ (chunkPages_pageids_lt l 0), getLast_chunkPages l h,
    Option.map_some']
  congr 1
  simp only [List.length_map, List.length_take, List.length_drop]
  rw [PAGE_SIZE] at *
  omega

theorem flatten_chunkPages (N : Nat) : ∀ (l : List (Nat × StoredDoc)) (k : Nat),
    l.length ≤ N →
    ((chunkPages l k).map (fun r => r.data)).flatten = l.map (fun p => p.2) := by
  induction N with
  | zero =>
    intro l k hlen
    have : l = [] := by
      cases l with
      | nil => rfl
      | cons a t => simp at hlen
    subst this
    rfl
  | succ M ih =>
    intro l k hlen
    by_cases hsmall : l.length ≤ PAGE_SIZE
    · cases hl : l with
      | nil => rfl
      | cons a t =>
        rw [← hl]
        rw [chunkPages_small l k (by rw [hl]; exact List.cons_ne_nil _ _) hsmall]
        simp
    · have hsplit : l.take PAGE_SIZE ++ l.drop PAGE_SIZE = l := List.take_append_drop _ _
      have hClen : (l.take PAGE_SIZE).length = PAGE_SIZE := by
        rw [List.length_take]
        omega
      rw [← hsplit, chunkPages_cons _ _ _ hClen, List.map_cons, List.flatten_cons]
      rw [ih (l.drop PAGE_SIZE) (k + 1) ?_]
      · rw [List.map_append]
      · rw [List.length_drop, PAGE_SIZE] at *
        omega

theorem perm_strict_sorted_eq {β : Type} (key : β → Nat) :
    ∀ l₁ l₂ : List β, List.Perm l₁ l₂ →
      (l₁.map key).Pairwise (· < ·) →
      (l₂.map key).Pairwise (· < ·) → l₁ = l₂ := by
  intro l₁
  induction l₁ with
  | nil =>
    intro l₂ hp _ _
    rw [hp.symm.eq_nil]
  | cons a t ih =>
    intro l₂ hp h1 h2
    cases l₂ with
    | nil =>
      exact absurd hp.eq_nil (by simp)
    | cons b t₂ =>
      have hab : a = b := by
        by_contra hne
        have hbmem : b ∈ a :: t := hp.mem_iff.mpr (List.mem_cons_self b t₂)
        have hamem : a ∈ b :: t₂ := hp.mem_iff.mp (List.mem_cons_self a t)
        rw [List.mem_cons] at hbmem hamem
        have hbt : b ∈ t := hbmem.resolve_left (fun hh => hne hh.symm)
        have hat : a ∈ t₂ := hamem.resolve_left hne
        rw [List.map_cons, List.pairwise_cons] at h1 h2
        have h1' : key a < key b := h1.1 (key b) (List.mem_map_of_mem key hbt)
        have h2' : key b < key a := h2.1 (key a) (List.mem_map_of_mem key hat)
        omega
      subst hab
      rw [List.map_cons, List.pairwise_cons] at h1 h2
      rw [ih t₂ hp.cons_inv h1.2 h2.2]

theorem insertionSort_pages_eq (pages : List PageRow)
    (h : (pages.map (fun r => r.pageid)).Pairwise (· < ·)) :
    pages.insertionSort pageLe = pages := by
  have hperm := List.perm_insertionSort pageLe pages
  have hnodup : ((pages.insertionSort pageLe).map (fun r => r.pageid)).Nodup := by
    refine ((hperm.map (fun r => r.pageid)).nodup_iff).mpr ?_
    exact h.imp (fun hlt => Nat.ne_of_lt hlt)
  have hsorted : ((pages.insertionSort pageLe).map (fun r => r.pageid)).Pairwise (· ≤ ·) := by
    rw [List.pairwise_map]
    exact (List.sorted_insertionSort pageLe pages).imp (fun hle => hle)
  have hstrict : ((pages.insertionSort pageLe).map (fun r => r.pageid)).Pairwise (· < ·) := by
    refine (hsorted.and hnodup).imp ?_
    intro a b hab
    omega
  exact perm_strict_sorted_eq (fun r => r.pageid) _ _ hperm hstrict h

/-! ### Emission order: order_source and gen_ordered -/

/-- Per-entry effect of a successful `order_source` pass: the filename is
nulled exactly when it equals the one derived from the title. -/
def normE (e : Entry) : Entry :=
  match to_filename e.2.2.title with
  | some fn =>
    (e.1, e.2.1, if e.2.2.filename = some fn then ⟨none, e.2.2.title, e.2.2.extra⟩ else e.2.2)
  | none => e

theorem normE_title (e : Entry) : (normE e).2.2.title = e.2.2.title := by
  rw [normE]
  cases hfn : to_filename e.2.2.title with
  | none => rfl
  | some fn =>
    by_cases hf : e.2.2.filename = some fn
    · simp [hf]
    · simp [hf]

theorem vflat_dictAppend {κ β : Type} [DecidableEq κ] (l : List (κ × List β)) (k : κ) (v : β) :
    List.Perm (((dictAppend l k v).map (fun p => p.2)).flatten)
      ((l.map (fun p => p.2)).flatten ++ [v]) := by
  induction l with
  | nil => simp [dictAppend]
  | cons hd rest ih =>
    obtain ⟨k', vs⟩ := hd
    by_cases hkk : k = k'
    · subst hkk
      simp only [dictAppend, eq_self_iff_true, if_true, List.map_cons, List.flatten_cons,
        List.append_assoc]
      refine List.Perm.append_left _ ?_
      exact List.perm_append_comm
    · simp only [dictAppend, if_neg hkk, List.map_cons, List.flatten_cons, List.append_assoc]
      refine List.Perm.append_left _ ?_
      exact ih

theorem order_source_ok : ∀ (src : List Entry) (acc buckets : List (Int × List Entry)),
    order_source src acc = .ok buckets →
    List.Perm ((buckets.map (fun p => p.2)).flatten)
        ((acc.map (fun p => p.2)).flatten ++ src.map normE) ∧
    ((dKeys acc).Nodup → (dKeys buckets).Nodup) ∧
    (∀ e ∈ src, ∃ fn, to_filename e.2.2.title = some fn) := by
  intro src
  induction src with
  | nil =>
    intro acc buckets hok
    rw [order_source] at hok
    cases hok
    refine ⟨by simp, fun h => h, ?_⟩
    intro e he
    exact absurd he (List.not_mem_nil e)
  | cons e rest ih =>
    intro acc buckets hok
    obtain ⟨words, score, data⟩ := e
    rw [order_source] at hok
    cases hfn : to_filename data.title with
    | none => rw [hfn] at hok; exact absurd hok (by simp)
    | some fn =>
      rw [hfn] at hok
      obtain ⟨hperm, hnodup, htitles⟩ := ih _ buckets hok
      have hnorm : normE (words, score, data)
          = (words, score,
              if data.filename = some fn then ⟨none, data.title, data.extra⟩ else data) := by
        rw [normE]
        simp only [hfn]
      refine ⟨?_, ?_, ?_⟩
      · refine hperm.trans ?_
        refine (List.Perm.append_right _ (vflat_dictAppend acc score _)).trans ?_
        rw [List.map_cons, hnorm, List.append_assoc, List.singleton_append]
      · intro hnd
        exact hnodup (nodup_dKeys_dictAppend acc score _ hnd)
      · intro e' he'
        rw [List.mem_cons] at he'
        rcases he' with rfl | he'
        · exact ⟨fn, hfn⟩
        · exact htitles e' he'

theorem map_dGet_of_nodup {κ β : Type} [DecidableEq κ] :
    ∀ l : List (κ × List β), (dKeys l).Nodup →
      (dKeys l).map (fun k => dGet l k) = l.map (fun p => p.2) := by
  intro l
  induction l with
  | nil => intro _; rfl
  | cons hd rest ih =>
    intro hnd
    obtain ⟨k, vs⟩ := hd
    have hk : k ∉ dKeys rest := by
      simp only [dKeys, List.map_cons, List.nodup_cons] at hnd
      exact hnd.1
    have hnd' : (dKeys rest).Nodup := by
      simp only [dKeys, List.map_cons, List.nodup_cons] at hnd
      exact hnd.2
    simp only [dKeys, List.map_cons]
    congr 1
    · simp [dGet]
    · rw [show List.map (fun k' => dGet ((k, vs) :: rest) k') (List.map (fun p => p.1) rest)
          = List.map (fun k' => dGet rest k') (List.map (fun p => p.1) rest) from ?_]
      · exact ih hnd'
      · refine List.map_congr_left ?_
        intro k' hk'
        have hne : ¬ k = k' := by
          intro hh
          exact hk (hh ▸ hk')
        simp [dGet, hne]

theorem gen_ordered_perm (osrc : List (Int × List Entry)) (hnd : (dKeys osrc).Nodup) :
    List.Perm (gen_ordered osrc) ((osrc.map (fun p => p.2)).flatten) := by
  rw [gen_ordered]
  have hflat : ((dKeys osrc).insertionSort scoreGe).flatMap (fun sc => dGet osrc sc)
      = ((((dKeys osrc).insertionSort scoreGe).map (fun sc => dGet osrc sc))).flatten := rfl
  rw [hflat]
  have hkp : List.Perm ((dKeys osrc).insertionSort scoreGe) (dKeys osrc) :=
    List.perm_insertionSort _ _
  refine ((hkp.map (fun sc => dGet osrc sc)).flatten).trans ?_
  rw [map_dGet_of_nodup osrc hnd]

/-- Successful builds decomposed: the bucketed source, the emitted order,
the pages, the per-word DocSets, and the returned pair count. -/
theorem create_ok_parts (src : List Entry) (db : IndexDB)
    (hok : Index.create src = .ok db) :
    ∃ osrc tokens, order_source src [] = .ok osrc ∧
      add_tokens_to_db (add_docs_keys (gen_ordered osrc)).2 = .ok tokens ∧
      db = ⟨tokens, (add_docs_keys (gen_ordered osrc)).1,
        ((add_docs_keys (gen_ordered osrc)).2.map (fun p => p.2.len)).sum⟩ := by
  rw [Index.create] at hok
  cases ho : order_source src [] with
  | error e =>
    rw [ho] at hok
    exact absurd hok (by simp [Bind.bind, Except.bind])
  | ok osrc =>
    rw [ho] at hok
    cases ht : add_tokens_to_db (add_docs_keys (gen_ordered osrc)).2 with
    | error e =>
      rw [show (do
          let osrc ← Except.ok osrc
          let emitted := gen_ordered osrc
          let pk := add_docs_keys emitted
          let tokens ← add_tokens_to_db pk.2
          return (⟨tokens, pk.1, (pk.2.map (fun p => p.2.len)).sum⟩ : IndexDB))
        = (Except.error e : Except String IndexDB) from by
          simp [Bind.bind, Except.bind, ht]] at hok
      exact absurd hok (by simp)
    | ok tokens =>
      refine ⟨osrc, tokens, rfl, ht, ?_⟩
      simp only [Bind.bind, Except.bind, ht, pure, Except.pure] at hok
      cases hok
      rfl

/-- Successful builds, summarized at the level of the stored record
stream: the pages are its PAGE_SIZE-chunking, it is a permutation of the
normalized source, and every stored title derives a filename. -/
theorem create_emitted (src : List Entry) (db : IndexDB)
    (hok : Index.create src = .ok db) :
    ∃ emitted : List Entry,
      List.Perm emitted (src.map normE) ∧
      db.pages = chunkPages (emitted.map (fun e => (e.1.length, mkStored e))) 0 ∧
      (∀ e ∈ emitted, ∃ fn, to_filename e.2.2.title = some fn) := by
  obtain ⟨osrc, tokens, ho, ht, hdb⟩ := create_ok_parts src db hok
  obtain ⟨hperm, hnodup, htitles⟩ := order_source_ok src [] osrc ho
  have hnd : (dKeys osrc).Nodup := hnodup (by simp [dKeys])
  refine ⟨gen_ordered osrc, ?_, ?_, ?_⟩
  · refine (gen_ordered_perm osrc hnd).trans ?_
    simpa using hperm
  · rw [hdb]
    show (add_docs_keys (gen_ordered osrc)).1 = _
    rw [add_docs_keys]
    exact buildDocsTable_spec _
  · intro e he
    have hperm2 : List.Perm (gen_ordered osrc) (src.map normE) := by
      refine (gen_ordered_perm osrc hnd).trans ?_
      simpa using hperm
    have hmem : e ∈ src.map normE := hperm2.mem_iff.mp he
    rw [List.mem_map] at hmem
    obtain ⟨e0, he0, rfl⟩ := hmem
    obtain ⟨fn, hfn⟩ := htitles e0 he0
    exact ⟨fn, by rw [normE_title]; exact hfn⟩

/-- Evaluation of get_doc when the docid's page exists and holds a record
at the docid's offset. -/
theorem get_doc_eval (db : IndexDB) (docid : Nat) (data : List StoredDoc) (r : StoredDoc)
    (hp : Index.getPage db (docid / PAGE_SIZE) = some data)
    (hr : data[docid % PAGE_SIZE]? = some r) :
    Index.get_doc db docid = (backfill r).map (fun x => some x) := by
  rw [Index.get_doc, hp]
  have hne : data.isEmpty = false := by
    cases hd : data with
    | nil =>
      rw [hd] at hr
      simp at hr
    | cons a t => rfl
  simp only [hne, Bool.false_eq_true, if_false, hr]

/-- Evaluation of get_doc when the docid's page does not exist. -/
theorem get_doc_none (db : IndexDB) (docid : Nat)
    (hp : Index.getPage db (docid / PAGE_SIZE) = none) :
    Index.get_doc db docid = .ok none := by
  rw [Index.get_doc, hp]

/-- Evaluation of get_doc when the page exists but the offset is past its
records: the IndexError path. -/
theorem get_doc_oob (db : IndexDB) (docid : Nat) (data : List StoredDoc)
    (hp : Index.getPage db (docid / PAGE_SIZE) = some data) (hne : data ≠ [])
    (hr : data[docid % PAGE_SIZE]? = none) :
    Index.get_doc db docid = .error () := by
  rw [Index.get_doc, hp]
  have hne' : data.isEmpty = false := by
    cases hd : data with
    | nil => exact absurd hd hne
    | cons a t => rfl
  simp only [hne', Bool.false_eq_true, if_false, hr]

/-- For every docid below the document count of a successfully built
index, get_doc resolves to the stored record at that docid — the record
that `values` yields at the same position — via the filename back-fill,
and the back-fill's `to_filename` succeeds. -/
theorem get_doc_built (src : List Entry) (db : IndexDB)
    (hok : Index.create src = .ok db) (d : Nat) (hd : d < src.length) :
    ∃ row, (Index.values db)[d]? = some row ∧
      (∃ fn, to_filename row.title = some fn) ∧
      Index.get_doc db d = (backfill row).map (fun x => some x) := by
  obtain ⟨emitted, hperm, hpages, htitles⟩ := create_emitted src db hok
  set stored := emitted.map (fun e => (e.1.length, mkStored e)) with hstored
  have hslen : stored.length = src.length := by
    rw [hstored, List.length_map, hperm.length_eq, List.length_map]
  have hvals : Index.values db = stored.map (fun p => p.2) := by
    rw [Index.values, hpages, insertionSort_pages_eq _ (chunkPages_pageids_lt stored 0)]
    exact flatten_chunkPages stored.length stored 0 (le_refl _)
  have hdlt : d < stored.length := by omega
  have hcond : PAGE_SIZE * (d / PAGE_SIZE) < stored.length := by
    simp only [PAGE_SIZE] at *
    omega
  have hpage : Index.getPage db (d / PAGE_SIZE)
      = some (((stored.drop (PAGE_SIZE * (d / PAGE_SIZE))).take PAGE_SIZE).map
          (fun p => p.2)) := by
    rw [Index.getPage, hpages, find_chunkPages, if_pos hcond]
  obtain ⟨row0, hrow0⟩ : ∃ p, stored[d]? = some p := ⟨_, List.getElem?_eq_getElem hdlt⟩
  refine ⟨row0.2, ?_, ?_, ?_⟩
  · rw [hvals, List.getElem?_map, hrow0, Option.map_some']
  · have hmem : row0 ∈ stored := by
      obtain ⟨hh, heq⟩ := List.getElem?_eq_some_iff.mp hrow0
      rw [← heq]
      exact List.getElem_mem hh
    rw [hstored, List.mem_map] at hmem
    obtain ⟨e, he, heq⟩ := hmem
    obtain ⟨fn, hfn⟩ := htitles e he
    refine ⟨fn, ?_⟩
    rw [← heq]
    exact hfn
  · refine get_doc_eval db d _ row0.2 hpage ?_
    rw [List.getElem?_map, List.getElem?_take, if_pos (by simp only [PAGE_SIZE]; omega),
      List.getElem?_drop]
    have hdm : PAGE_SIZE * (d / PAGE_SIZE) + d % PAGE_SIZE = d := Nat.div_add_mod d PAGE_SIZE
    rw [hdm, hrow0, Option.map_some']

theorem len_built (src : List Entry) (db : IndexDB)
    (hok : Index.create src = .ok db) (hne : src ≠ []) :
    Index.len db = some src.length := by
  obtain ⟨emitted, hperm, hpages, _⟩ := create_emitted src db hok
  set stored := emitted.map (fun e => (e.1.length, mkStored e)) with hstored
  have hslen : stored.length = src.length := by
    rw [hstored, List.length_map, hperm.length_eq, List.length_map]
  have hsne : stored ≠ [] := by
    intro h
    rw [h] at hslen
    cases hsrc : src with
    | nil => exact hne hsrc
    | cons a t =>
      rw [hsrc] at hslen
      simp at hslen
  rw [Index.len, hpages]
  rw [len_chunkPages stored hsne, hslen]

theorem values_length (src : List Entry) (db : IndexDB)
    (hok : Index.create src = .ok db) :
    (Index.values db).length = src.length := by
  obtain ⟨emitted, hperm, hpages, _⟩ := create_emitted src db hok
  set stored := emitted.map (fun e => (e.1.length, mkStored e)) with hstored
  have hvals : Index.values db = stored.map (fun p => p.2) := by
    rw [Index.values, hpages, insertionSort_pages_eq _ (chunkPages_pageids_lt stored 0)]
    exact flatten_chunkPages stored.length stored 0 (le_refl _)
  rw [hvals, List.length_map, hstored, List.length_map, hperm.length_eq, List.length_map]

/-- C6: on a non-empty successfully built index, `random()` draws its
docid from `[0, len())` with `len()` equal to the number of source
documents, and `get_doc` of every docid in that range returns a record —
never an absent result and never a raised error. -/
theorem random_never_fails (src : List Entry) (db : IndexDB)
    (hok : Index.create src = .ok db) (hne : src ≠ []) :
    Index.len db = some src.length ∧
    ∀ d, d < src.length → ∃ r, Index.get_doc db d = .ok (some r) := by
  refine ⟨len_built src db hok hne, ?_⟩
  intro d hd
  obtain ⟨row, _, ⟨fn, hfn⟩, hgd⟩ := get_doc_built src db hok d hd
  cases hfname : row.filename with
  | none =>
    refine ⟨{ row with filename := some fn }, ?_⟩
    rw [hgd, backfill, hfname, hfn]
    rfl
  | some f =>
    refine ⟨row, ?_⟩
    rw [hgd, backfill, hfname]
    rfl

theorem random_never_fails_witness :
    ∃ db, Index.create [(["w"], (1 : Int), ⟨none, "T", []⟩)] = .ok db ∧
      (Index.len db = some 1 ∧
        ∀ d, d < 1 → ∃ r, Index.get_doc db d = .ok (some r)) := by
  refine ⟨_, rfl, ?_⟩
  exact random_never_fails [(["w"], (1 : Int), ⟨none, "T", []⟩)] _ rfl
    (List.cons_ne_nil _ _)

/-- C10: records whose stored filename is None (normalized away at build
time when it equals the filename derived from the title) are yielded by
`values()` with the filename still None, while `get_doc` on the same
docid returns the record with the filename back-filled from the title. -/
theorem values_no_backfill (src : List Entry) (db : IndexDB)
    (hok : Index.create src = .ok db) (d : Nat) (v : StoredDoc)
    (hv : (Index.values db)[d]? = some v) (hnone : v.filename = none) :
    ∃ fn, to_filename v.title = some fn ∧
      Index.get_doc db d = .ok (some ⟨some fn, v.title, v.extra, v.score⟩) := by
  have hd : d < src.length := by
    obtain ⟨hh, _⟩ := List.getElem?_eq_some_iff.mp hv
    rw [values_length src db hok] at hh
    exact hh
  obtain ⟨row, hrow, ⟨fn, hfn⟩, hgd⟩ := get_doc_built src db hok d hd
  rw [hv] at hrow
  cases hrow
  refine ⟨fn, hfn, ?_⟩
  rw [hgd, backfill, hnone, hfn]
  rfl

theorem values_no_backfill_witness :
    ∃ db v, Index.create [(["w"], (1 : Int), ⟨some "Tit/Title", "Title", []⟩)] = .ok db ∧
      (Index.values db)[0]? = some v ∧ v.filename = none ∧
      ∃ fn, to_filename v.title = some fn ∧
        Index.get_doc db 0 = .ok (some ⟨some fn, v.title, v.extra, v.score⟩) := by
  refine ⟨_, _, rfl, rfl, rfl, ?_⟩
  exact values_no_backfill [(["w"], (1 : Int), ⟨some "Tit/Title", "Title", []⟩)] _ rfl 0 _
    rfl rfl

/-- C4: building an index from exactly PAGE_SIZE + 1 = 513 documents
yields exactly two pages, with ids 0 and 1 holding 512 and 1 records;
`get_doc(PAGE_SIZE - 1)` resolves to the record at offset PAGE_SIZE - 1
of page 0 and `get_doc(PAGE_SIZE)` to the record at offset 0 of page 1
(each returned through the filename back-fill); `len()` equals
PAGE_SIZE + 1. -/
theorem pagination_boundary (src : List Entry) (db : IndexDB)
    (hok : Index.create src = .ok db) (hlen : src.length = PAGE_SIZE + 1) :
    db.pages.map (fun r => r.pageid) = [0, 1] ∧
    (∃ p0, Index.getPage db 0 = some p0 ∧ p0.length = PAGE_SIZE ∧
      ∃ r0, p0[PAGE_SIZE - 1]? = some r0 ∧
        Index.get_doc db (PAGE_SIZE - 1) = (backfill r0).map (fun x => some x)) ∧
    (∃ p1, Index.getPage db 1 = some p1 ∧ p1.length = 1 ∧
      ∃ r1, p1[0]? = some r1 ∧
        Index.get_doc db PAGE_SIZE = (backfill r1).map (fun x => some x)) ∧
    Index.len db = some (PAGE_SIZE + 1) := by
  obtain ⟨emitted, hperm, hpages, _⟩ := create_emitted src db hok
  set stored := emitted.map (fun e => (e.1.length, mkStored e)) with hstored
  have hslen : stored.length = PAGE_SIZE + 1 := by
    rw [hstored, List.length_map, hperm.length_eq, List.length_map, hlen]
  have hsne : stored ≠ [] := by
    intro h
    rw [h] at hslen
    simp [PAGE_SIZE] at hslen
  refine ⟨?_, ?_, ?_, ?_⟩
  · rw [hpages, chunkPages_pageids, hslen]
    rw [show (PAGE_SIZE + 1 + (PAGE_SIZE - 1)) / PAGE_SIZE = 2 from by
      simp only [PAGE_SIZE]]
    rfl
  · refine ⟨((stored.drop (PAGE_SIZE * 0)).take PAGE_SIZE).map (fun p => p.2), ?_, ?_, ?_⟩
    · rw [Index.getPage, hpages, find_chunkPages, if_pos (by simp only [PAGE_SIZE] at *; omega)]
    · simp only [List.length_map, List.length_take, List.length_drop]
      simp only [PAGE_SIZE] at *
      omega
    · have hdlt : PAGE_SIZE - 1
          < (((stored.drop (PAGE_SIZE * 0)).take PAGE_SIZE).map (fun p => p.2)).length := by
        simp only [List.length_map, List.length_take, List.length_drop]
        simp only [PAGE_SIZE] at *
        omega
      refine ⟨_, List.getElem?_eq_getElem hdlt, ?_⟩
      refine get_doc_eval db (PAGE_SIZE - 1)
        (((stored.drop (PAGE_SIZE * 0)).take PAGE_SIZE).map (fun p => p.2)) _ ?_ ?_
      · rw [show (PAGE_SIZE - 1) / PAGE_SIZE = 0 from by simp only [PAGE_SIZE]]
        rw [Index.getPage, hpages, find_chunkPages,
          if_pos (by simp only [PAGE_SIZE] at *; omega)]
      · rw [show (PAGE_SIZE - 1) % PAGE_SIZE = PAGE_SIZE - 1 from by simp only [PAGE_SIZE]]
        exact List.getElem?_eq_getElem hdlt
  · refine ⟨((stored.drop (PAGE_SIZE * 1)).take PAGE_SIZE).map (fun p => p.2), ?_, ?_, ?_⟩
    · rw [Index.getPage, hpages, find_chunkPages, if_pos (by simp only [PAGE_SIZE] at *; omega)]
    · simp only [List.length_map, List.length_take, List.length_drop]
      simp only [PAGE_SIZE] at *
      omega
    · have hdlt : 0
          < (((stored.drop (PAGE_SIZE * 1)).take PAGE_SIZE).map (fun p => p.2)).length := by
        simp only [List.length_map, List.length_take, List.length_drop]
        simp only [PAGE_SIZE] at *
        omega
      refine ⟨_, List.getElem?_eq_getElem hdlt, ?_⟩
      refine get_doc_eval db PAGE_SIZE
        (((stored.drop (PAGE_SIZE * 1)).take PAGE_SIZE).map (fun p => p.2)) _ ?_ ?_
      · rw [show PAGE_SIZE / PAGE_SIZE = 1 from by simp only [PAGE_SIZE]]
        rw [Index.getPage, hpages, find_chunkPages,
          if_pos (by simp only [PAGE_SIZE] at *; omega)]
      · rw [show PAGE_SIZE % PAGE_SIZE = 0 from by simp only [PAGE_SIZE]]
        exact List.getElem?_eq_getElem hdlt
  · rw [Index.len, hpages, len_chunkPages stored hsne, hslen]

set_option maxRecDepth 1000000 in
set_option maxHeartbeats 4000000 in
theorem pagination_boundary_witness :
    (List.replicate 513 ((["w"], (1 : Int), ⟨none, "T", []⟩) : Entry)).length
        = PAGE_SIZE + 1 ∧
    ∃ db, Index.create (List.replicate 513 ((["w"], (1 : Int), ⟨none, "T", []⟩) : Entry))
        = .ok db ∧
      db.pages.map (fun r => r.pageid) = [0, 1] ∧ Index.len db = some (PAGE_SIZE + 1) := by
  have hok : ∃ db,
      Index.create (List.replicate 513 ((["w"], (1 : Int), ⟨none, "T", []⟩) : Entry))
        = .ok db := ⟨_, rfl⟩
  obtain ⟨db, hdb⟩ := hok
  have h := pagination_boundary _ db hdb (by simp [PAGE_SIZE])
  exact ⟨by simp [PAGE_SIZE], db, hdb, h.1, h.2.2.2⟩

/-! ### Claim C2 -/

/-- Counterexample to C2 as stated: on the index built from two documents,
`get_doc(2)` — a docid that does not exist in the index (its length is 2) —
raises an IndexError (the offset 2 is beyond page 0's records) instead of
returning an absent result. -/
theorem get_doc_missing_counterexample :
    ∃ db, Index.create [(["a"], (1 : Int), ⟨none, "T", []⟩),
        (["b"], (1 : Int), ⟨none, "U", []⟩)] = .ok db ∧
      Index.len db = some 2 ∧ Index.get_doc db 2 = .error () := by
  refine ⟨_, rfl, ?_, ?_⟩ <;> decide

/-- C2 as amended: `_get_page` on a missing page id yields None, and
`get_doc` yields None whenever the docid's page is missing (`if not
data`, which also covers an empty page block); but for a docid whose page
exists with a nonempty record block and whose offset is beyond those
records, `get_doc` raises an IndexError instead of returning an absent
result. -/
theorem get_doc_missing (db : IndexDB) (docid : Nat) :
    (Index.getPage db (docid / PAGE_SIZE) = none → Index.get_doc db docid = .ok none) ∧
    (∀ data, Index.getPage db (docid / PAGE_SIZE) = some data → data ≠ [] →
      data.length ≤ docid % PAGE_SIZE → Index.get_doc db docid = .error ()) := by
  constructor
  · intro hp
    exact get_doc_none db docid hp
  · intro data hp hne hlen
    refine get_doc_oob db docid data hp hne ?_
    exact List.getElem?_eq_none hlen

theorem get_doc_missing_witness :
    Index.get_doc ⟨[], [⟨0, [1], [⟨some "f", "T", [], 1⟩]⟩], 1⟩ 600 = .ok none ∧
    Index.get_doc ⟨[], [⟨0, [1], [⟨some "f", "T", [], 1⟩]⟩], 1⟩ 2 = .error () :=
  ⟨(get_doc_missing ⟨[], [⟨0, [1], [⟨some "f", "T", [], 1⟩]⟩], 1⟩ 600).1 (by decide),
    (get_doc_missing ⟨[], [⟨0, [1], [⟨some "f", "T", [], 1⟩]⟩], 1⟩ 2).2
      [⟨some "f", "T", [], 1⟩] (by decide) (by decide) (by decide)⟩

/-! ### Claim C8: the pair count returned by create -/

/-- Lookup in the `defaultdict(DocSet)` (empty DocSet when absent). -/
def dsGet : List (String × DocSet) → String → DocSet
  | [], _ => ⟨[]⟩
  | (w', ds) :: rest, w => if w = w' then ds else dsGet rest w

/-- The running value of `dict_stats["Indexed"]`: the sum of `len(docset)`
over the accumulated words. -/
def idxSum (dict : List (String × DocSet)) : Nat :=
  (dict.map (fun p => p.2.len)).sum

theorem DocSet.len_append (ds : DocSet) (i idx : Nat) :
    (ds.append i idx).len = if i ∈ ds.keysOf then ds.len else ds.len + 1 := by
  have hk : ∀ l : List (Nat × List Nat), l.length = (dKeys l).length := by
    intro l
    rw [dKeys, List.length_map]
  show (dictAppend ds.docs_list i idx).length = _
  rw [hk, dKeys_dictAppend, DocSet.keysOf]
  by_cases hmem : i ∈ dKeys ds.docs_list
  · rw [if_pos hmem, if_pos hmem, DocSet.len, hk ds.docs_list]
  · rw [if_neg hmem, if_neg hmem, List.length_append, DocSet.len, hk ds.docs_list]
    rfl

theorem mem_keysOf_append (ds : DocSet) (i idx j : Nat) :
    j ∈ (ds.append i idx).keysOf ↔ j ∈ ds.keysOf ∨ j = i :=
  mem_dKeys_dictAppend ds.docs_list i idx j

theorem dsGet_dsDictAppend (dict : List (String × DocSet)) (w : String) (i idx : Nat) :
    ∀ w', dsGet (dsDictAppend dict w i idx) w'
      = if w' = w then (dsGet dict w).append i idx else dsGet dict w' := by
  induction dict with
  | nil =>
    intro w'
    by_cases hww : w' = w
    · subst hww
      simp [dsDictAppend, dsGet]
    · simp [dsDictAppend, dsGet, hww]
  | cons hd rest ih =>
    intro w'
    obtain ⟨w0, ds⟩ := hd
    by_cases hw0 : w = w0
    · subst hw0
      by_cases hww : w' = w
      · subst hww
        simp [dsDictAppend, dsGet]
      · simp [dsDictAppend, dsGet, hww]
    · by_cases hww' : w' = w0
      · subst hww'
        have hne : ¬ w' = w := fun h => hw0 (h.symm ▸ rfl)
        simp [dsDictAppend, dsGet, hw0, hne]
      · simp [dsDictAppend, dsGet, hw0, hww', ih]

theorem idxSum_dsDictAppend (dict : List (String × DocSet)) (w : String) (i idx : Nat) :
    idxSum (dsDictAppend dict w i idx)
      = idxSum dict + (if i ∈ (dsGet dict w).keysOf then 0 else 1) := by
  induction dict with
  | nil =>
    simp [dsDictAppend, idxSum, dsGet, DocSet.len, DocSet.append, dictAppend, DocSet.keysOf,
      dKeys]
  | cons hd rest ih =>
    obtain ⟨w0, ds⟩ := hd
    by_cases hw0 : w = w0
    · subst hw0
      simp only [dsDictAppend, if_pos rfl, idxSum, List.map_cons, List.sum_cons,
        DocSet.len_append, dsGet, eq_self_iff_true, if_true]
      by_cases hmem : i ∈ ds.keysOf
      · rw [if_pos hmem, if_pos hmem]
        omega
      · rw [if_neg hmem, if_neg hmem]
        omega
    · simp only [dsDictAppend, if_neg hw0, idxSum, List.map_cons, List.sum_cons]
      simp only [idxSum] at ih
      rw [ih]
      have hget : dsGet ((w0, ds) :: rest) w = dsGet rest w := by
        simp [dsGet, hw0]
      rw [hget]
      omega

/-- Effect of adding one document's word appends (all with docid `i`) on
`dict_stats["Indexed"]`: the sum grows by the number of distinct words of
the document that do not yet hold docid `i`, and docid `i` is afterwards
held exactly by the previous holders plus the document's words. -/
theorem inner_fold (i : Nat) : ∀ (ps : List (Nat × String)) (dict : List (String × DocSet)),
    idxSum (ps.foldl (fun d2 iw => dsDictAppend d2 iw.2 i iw.1) dict)
      = idxSum dict
        + ((ps.map (fun p => p.2)).filter
            (fun w => decide (i ∉ (dsGet dict w).keysOf))).toFinset.card ∧
    (∀ w, i ∈ (dsGet (ps.foldl (fun d2 iw => dsDictAppend d2 iw.2 i iw.1) dict) w).keysOf
      ↔ i ∈ (dsGet dict w).keysOf ∨ w ∈ ps.map (fun p => p.2)) ∧
    (∀ w j, j ≠ i →
      (j ∈ (dsGet (ps.foldl (fun d2 iw => dsDictAppend d2 iw.2 i iw.1) dict) w).keysOf
        ↔ j ∈ (dsGet dict w).keysOf)) := by
  intro ps
  induction ps with
  | nil =>
    intro dict
    refine ⟨by simp, ?_, ?_⟩
    · intro w
      simp
    · intro w j _
      simp
  | cons p ps' ih =>
    intro dict
    obtain ⟨pos, w0⟩ := p
    have hstep : ((pos, w0) :: ps').foldl (fun d2 iw => dsDictAppend d2 iw.2 i iw.1) dict
        = ps'.foldl (fun d2 iw => dsDictAppend d2 iw.2 i iw.1) (dsDictAppend dict w0 i pos) :=
      rfl
    obtain ⟨ihsum, ihmem, ihother⟩ := ih (dsDictAppend dict w0 i pos)
    have hkeys : ∀ w, i ∈ (dsGet (dsDictAppend dict w0 i pos) w).keysOf
        ↔ i ∈ (dsGet dict w).keysOf ∨ w = w0 := by
      intro w
      rw [dsGet_dsDictAppend]
      by_cases hww : w = w0
      · subst hww
        rw [if_pos rfl, mem_keysOf_append]
        simp
      · rw [if_neg hww]
        simp [hww]
    have hkeysj : ∀ w j, j ≠ i →
        (j ∈ (dsGet (dsDictAppend dict w0 i pos) w).keysOf ↔ j ∈ (dsGet dict w).keysOf) := by
      intro w j hj
      rw [dsGet_dsDictAppend]
      by_cases hww : w = w0
      · subst hww
        rw [if_pos rfl, mem_keysOf_append]
        simp [hj]
      · rw [if_neg hww]
    refine ⟨?_, ?_, ?_⟩
    · rw [hstep, ihsum, idxSum_dsDictAppend]
      by_cases hmem : i ∈ (dsGet dict w0).keysOf
      · rw [if_pos hmem]
        have hfeq : (ps'.map (fun p => p.2)).filter
              (fun w => decide (i ∉ (dsGet (dsDictAppend dict w0 i pos) w).keysOf))
            = (ps'.map (fun p => p.2)).filter
              (fun w => decide (i ∉ (dsGet dict w).keysOf)) := by
          refine List.filter_congr ?_
          intro w _
          simp only [decide_eq_decide]
          rw [hkeys w]
          constructor
          · intro h hh
            exact h (Or.inl hh)
          · rintro h (hh | hh)
            · exact h hh
            · subst hh
              exact h hmem
        rw [hfeq]
        have hfcons : ((w0 :: ps'.map (fun p => p.2)).filter
              (fun w => decide (i ∉ (dsGet dict w).keysOf)))
            = (ps'.map (fun p => p.2)).filter
              (fun w => decide (i ∉ (dsGet dict w).keysOf)) := by
          rw [List.filter_cons]
          rw [if_neg (by simp [hmem])]
        simp only [List.map_cons, hfcons]
        omega
      · rw [if_neg hmem]
        have hw0new : decide (i ∉ (dsGet (dsDictAppend dict w0 i pos) w0).keysOf)
            = false := by
          simp only [decide_eq_false_iff_not, Decidable.not_not]
          rw [hkeys w0]
          exact Or.inr rfl
        have hsub : ∀ x ∈ ps'.map (fun p => p.2), x ≠ w0 →
            (decide (i ∉ (dsGet (dsDictAppend dict w0 i pos) x).keysOf)
              = decide (i ∉ (dsGet dict x).keysOf)) := by
          intro x _ hx
          simp only [decide_eq_decide]
          rw [hkeys x]
          constructor
          · intro h hh
            exact h (Or.inl hh)
          · rintro h (hh | hh)
            · exact h hh
            · exact absurd hh hx
        have hset : insert w0 (((ps'.map (fun p => p.2)).filter
              (fun w => decide (i ∉ (dsGet (dsDictAppend dict w0 i pos) w).keysOf))).toFinset)
            = ((w0 :: ps'.map (fun p => p.2)).filter
              (fun w => decide (i ∉ (dsGet dict w).keysOf))).toFinset := by
          ext x
          simp only [Finset.mem_insert, List.mem_toFinset, List.mem_filter, List.mem_cons]
          by_cases hx : x = w0
          · subst hx
            simp [hmem]
          · constructor
            · rintro (h | ⟨hx1, hx2⟩)
              · exact absurd h hx
              · exact ⟨Or.inr hx1, by rw [← hsub x hx1 hx]; exact hx2⟩
            · rintro ⟨hx1, hx2⟩
              rcases hx1 with hx1 | hx1
              · exact absurd hx1 hx
              · exact Or.inr ⟨hx1, by rw [hsub x hx1 hx]; exact hx2⟩
        have hnotin : w0 ∉ ((ps'.map (fun p => p.2)).filter
            (fun w => decide (i ∉ (dsGet (dsDictAppend dict w0 i pos) w).keysOf))).toFinset := by
          rw [List.mem_toFinset, List.mem_filter]
          rintro ⟨_, hh⟩
          rw [hw0new] at hh
          exact absurd hh (by simp)
        have hcard := Finset.card_insert_of_not_mem hnotin
        rw [hset] at hcard
        simp only [List.map_cons]
        omega
    · intro w
      rw [hstep, ihmem w, hkeys w]
      simp only [List.map_cons, List.mem_cons]
      tauto
    · intro w j hj
      rw [hstep, ihother w j hj, hkeysj w j hj]

/-- Effect of the whole document loop on `dict_stats["Indexed"]`: with
sequentially assigned fresh docids, every document contributes its number
of distinct words. -/
theorem outer_fold : ∀ (es : List Entry) (k : Nat) (dict : List (String × DocSet)),
    (∀ w j, j ∈ (dsGet dict w).keysOf → j < k) →
    idxSum ((List.enumFrom k es).foldl
        (fun dict ie => (ie.2.1.enum).foldl
          (fun d2 iw => dsDictAppend d2 iw.2 ie.1 iw.1) dict)
        dict)
      = idxSum dict + (es.map (fun e => e.1.toFinset.card)).sum := by
  intro es
  induction es with
  | nil =>
    intro k dict _
    simp [List.enumFrom]
  | cons e es' ih =>
    intro k dict hinv
    rw [List.enumFrom_cons, List.foldl_cons]
    obtain ⟨hsum, hmem, hother⟩ := inner_fold k (e.1.enum) dict
    have hwords : (e.1.enum).map (fun p => p.2) = e.1 := List.enum_map_snd e.1
    have hfull : ((e.1.enum).map (fun p => p.2)).filter
          (fun w => decide (k ∉ (dsGet dict w).keysOf))
        = (e.1.enum).map (fun p => p.2) := by
      rw [List.filter_eq_self]
      intro a _
      simp only [decide_eq_true_eq]
      intro hk
      exact absurd (hinv a k hk) (by omega)
    have hinv' : ∀ w j, j ∈ (dsGet ((e.1.enum).foldl
        (fun d2 iw => dsDictAppend d2 iw.2 k iw.1) dict) w).keysOf → j < k + 1 := by
      intro w j hjmem
      by_cases hjk : j = k
      · omega
      · rw [hother w j hjk] at hjmem
        have := hinv w j hjmem
        omega
    rw [ih (k + 1) _ hinv', hsum, hfull, hwords]
    simp only [List.map_cons, List.sum_cons]
    omega

theorem normE_words (e : Entry) : (normE e).1 = e.1 := by
  rw [normE]
  cases to_filename e.2.2.title
  · rfl
  · rfl

/-- Counterexample to C8 as stated: with a word repeated in one document's
word list, create returns 1 — the count of distinct (word, document)
pairs — while the total number of word occurrences across all words of
all emitted documents is 2. -/
theorem create_count_counterexample :
    ∃ db, Index.create [((["cat", "cat"], (1 : Int), ⟨none, "T", []⟩) : Entry)] = .ok db ∧
      db.indexed = 1 ∧
      ([((["cat", "cat"], (1 : Int), ⟨none, "T", []⟩) : Entry)].map
        (fun e => e.1.length)).sum = 2 ∧
      ¬ db.indexed = ([((["cat", "cat"], (1 : Int), ⟨none, "T", []⟩) : Entry)].map
        (fun e => e.1.length)).sum := by
  refine ⟨_, rfl, ?_, ?_, ?_⟩ <;> decide

/-- C8 as amended: the value returned by Index.create is the number of
distinct (word, document) pairs indexed — each word of a document counted
once even when it occurs at several positions of the title. -/
theorem create_counts_distinct (src : List Entry) (db : IndexDB)
    (hok : Index.create src = .ok db) :
    db.indexed = (src.map (fun e => e.1.toFinset.card)).sum := by
  obtain ⟨osrc, tokens, ho, ht, hdb⟩ := create_ok_parts src db hok
  obtain ⟨hperm, hnodup, _⟩ := order_source_ok src [] osrc ho
  have hnd : (dKeys osrc).Nodup := hnodup (by simp [dKeys])
  have hperm2 : List.Perm (gen_ordered osrc) (src.map normE) := by
    refine (gen_ordered_perm osrc hnd).trans ?_
    simpa using hperm
  have hidx : db.indexed
      = idxSum (add_docs_keys (gen_ordered osrc)).2 := by
    rw [hdb]
    rfl
  rw [hidx]
  show idxSum (((gen_ordered osrc).enum).foldl
    (fun dict ie => (ie.2.1.enum).foldl
      (fun d2 iw => dsDictAppend d2 iw.2 ie.1 iw.1) dict) []) = _
  have houter := outer_fold (gen_ordered osrc) 0 []
    (by intro w j hj; simp [dsGet, DocSet.keysOf, dKeys] at hj)
  rw [show ((gen_ordered osrc).enum) = List.enumFrom 0 (gen_ordered osrc) from rfl]
  rw [houter]
  have hsums : ((gen_ordered osrc).map (fun e => e.1.toFinset.card)).sum
      = ((src.map normE).map (fun e => e.1.toFinset.card)).sum :=
    (hperm2.map (fun e => e.1.toFinset.card)).sum_eq
  rw [hsums, List.map_map]
  have hcongr : (src.map ((fun e : Entry => e.1.toFinset.card) ∘ normE))
      = src.map (fun e => e.1.toFinset.card) := by
    refine List.map_congr_left ?_
    intro e _
    show (normE e).1.toFinset.card = e.1.toFinset.card
    rw [normE_words]
  rw [hcongr]
  simp [idxSum]

theorem create_counts_distinct_witness :
    ∃ db, Index.create [((["cat", "cat", "dog"], (1 : Int), ⟨none, "T", []⟩) : Entry)]
        = .ok db ∧
      db.indexed = ([((["cat", "cat", "dog"], (1 : Int), ⟨none, "T", []⟩) : Entry)].map
        (fun e => e.1.toFinset.card)).sum := by
  refine ⟨_, rfl, ?_⟩
  exact create_counts_distinct [((["cat", "cat", "dog"], (1 : Int), ⟨none, "T", []⟩) : Entry)]
    _ rfl

/-- C5: the end-to-end build example: building from
`(["cat","dog"], 10, [None,"Cat"])`, `(["dog","bird"], 5, [None,"Dog"])`,
`(["cat"], 20, [None,"Cat2"])` emits the documents by descending score —
docid 0 = Cat2 (score 20), docid 1 = Cat (score 10), docid 2 = Dog
(score 5) — `keys()` is the set {cat, dog, bird}, the title of
`get_doc(0)` is "Cat2", and the stored posting list for "cat" decodes to
{0: [0], 1: [0]}. -/
theorem end_to_end_example :
    ∃ db, Index.create
        [((["cat", "dog"], (10 : Int), ⟨none, "Cat", []⟩) : Entry),
          ((["dog", "bird"], (5 : Int), ⟨none, "Dog", []⟩) : Entry),
          ((["cat"], (20 : Int), ⟨none, "Cat2", []⟩) : Entry)] = .ok db ∧
      (Index.values db).map (fun r => (r.title, r.score))
        = [("Cat2", 20), ("Cat", 10), ("Dog", 5)] ∧
      (Index.keys db).toFinset = ({"cat", "dog", "bird"} : Finset String) ∧
      (∃ r, Index.get_doc db 0 = .ok (some r) ∧ r.title = "Cat2") ∧
      (db.tokens.find? (fun p => p.1 == "cat")).map (fun p => DocSet.decode p.2)
        = some ⟨[(0, [0]), (1, [0])]⟩ := by
  refine ⟨_, rfl, ?_, ?_, ⟨_, rfl, rfl⟩, ?_⟩ <;> decide

end CDPedia
